import Mathlib

/-!
Verification development for the Expression repository (include/Expression.hpp).

The C++ library represents arithmetic expressions over a numeric domain
(`using Real = long double`) as a tagged tree (ConstNode, VarNode,
BinaryOpNode, FunctionNode), and provides evaluation under a variable
binding, textual serialization (`to_string`), symbolic differentiation
(`diff`) with the simplifying smart constructors `del_zero`, `del_mult`,
`del_div`, `del_pow`, and a two-stack infix parser (`make_expression`).

Modelling conventions used throughout this file:

* The scalar domain `long double` is modelled by `ℚ`.  Every concrete
  computation appearing in a theorem below (small integer literals,
  decimal literals with at most six fractional digits, the additions,
  subtractions and multiplications of the folding rules) is exact in
  `long double`, so on those values the model agrees with the C++ code.
  Division in the model is `ℚ` division (total, with junk value `0` for a
  zero divisor, where C++ produces `inf`); no theorem below depends on a
  division by zero.
* The transcendental functions `std::sin`, `std::cos`, `std::exp`,
  `std::log` and `std::pow` are library functions, not code of the
  repository; they are abstracted into a `Transcendentals` record that
  parametrises evaluation, the smart constructor `del_pow` (which folds
  constants through `std::pow`) and hence differentiation and parsing.
  Theorems that need a concrete value of `std::pow` either take the
  (true of `long double`) facts as hypotheses, or use `cppTD`, whose
  `powF` agrees with `std::pow` on the nonnegative-integer exponents that
  the theorems exercise.
* Exceptions (`throw std::runtime_error(...)`) are modelled by
  `Except` error values carrying the thrown message.  A `pop`/`top`
  executed on an empty `std::stack` is undefined behavior in C++; it is
  modelled by the distinguished error value `PErr.underflow`, and the
  model aborts at the first such operation.
-/

/-- Binary operator tags of `ExprType` (Add, Subtract, Multiply, Divide, Power). -/
inductive Op where
  | add | sub | mul | div | pow
deriving DecidableEq, Repr

/-- Function tags of `ExprType` (Sin, Cos, Ln, Exp). -/
inductive Fn where
  | sin | cos | ln | exp
deriving DecidableEq, Repr

/-- The expression tree: ConstNode, VarNode, BinaryOpNode, FunctionNode of
`Expression.hpp`.  A `shared_ptr<Node<T>>` is modelled as the tree it points
to (the code never mutates a node after construction, and `clone()` is a deep
copy, so pointer identity is unobservable). -/
inductive Expr where
  | const : ℚ → Expr
  | var : String → Expr
  | binop : Op → Expr → Expr → Expr
  | func : Fn → Expr → Expr
deriving DecidableEq, Repr

/-- The transcendental/power functions of the numeric layer (`std::sin`,
`std::cos`, `std::exp`, `std::log`, `std::pow`).  They are library functions
outside the repository, so they enter the model as parameters. -/
structure Transcendentals where
  sinF : ℚ → ℚ
  cosF : ℚ → ℚ
  expF : ℚ → ℚ
  lnF : ℚ → ℚ
  powF : ℚ → ℚ → ℚ

/-- Model of `std::pow` on `long double`, exact on the values the theorems
below exercise: for an integer exponent it is the usual integer power (which
`std::pow` computes exactly at these magnitudes); for a non-integer exponent
the result is generally irrational and the model returns the junk value `0`
(no theorem depends on that case). -/
def ratPow (a b : ℚ) : ℚ :=
  if b.den = 1 then
    (if 0 ≤ b.num then a ^ b.num.toNat else (a ^ (-b.num).toNat)⁻¹)
  else 0

/-- A concrete `Transcendentals` instantiation used to run the model.  Its
`powF` is `ratPow`; the four transcendental functions are arbitrary (`0`),
and no theorem stated with `cppTD` evaluates them. -/
def cppTD : Transcendentals where
  sinF := fun _ => 0
  cosF := fun _ => 0
  expF := fun _ => 0
  lnF := fun _ => 0
  powF := ratPow

/-- Evaluation error: `VarNode::eval` throws
`std::runtime_error("Variable '" + var + "' is not provided")` when the name
is absent from the binding map. -/
inductive EvalErr where
  | unbound : String → EvalErr
deriving DecidableEq, Repr

/-- The binding map `std::map<std::string, T>`: a read-only name-to-value
lookup. -/
def Bindings : Type := String → Option ℚ

/-- Model of `Node::eval` (ConstNode returns its value; VarNode looks the
name up and throws if absent; BinaryOpNode evaluates left then right and
applies the operator, Power through `std::pow`; FunctionNode evaluates its
argument and applies the named function). -/
def evalD (TD : Transcendentals) : Expr → Bindings → Except EvalErr ℚ
  | .const q, _ => .ok q
  | .var v, b =>
      match b v with
      | some x => .ok x
      | none => .error (.unbound v)
  | .binop op l r, b => do
      let lv ← evalD TD l b
      let rv ← evalD TD r b
      match op with
      | .add => .ok (lv + rv)
      | .sub => .ok (lv - rv)
      | .mul => .ok (lv * rv)
      | .div => .ok (lv / rv)
      | .pow => .ok (TD.powF lv rv)
  | .func f a, b => do
      let av ← evalD TD a b
      match f with
      | .sin => .ok (TD.sinF av)
      | .cos => .ok (TD.cosF av)
      | .exp => .ok (TD.expF av)
      | .ln => .ok (TD.lnF av)

/-- Model of `is_one`: the node is a `ConstNode` whose value equals 1
(`dynamic_pointer_cast<ConstNode>` plus `eval({}) == 1`). -/
def is_one : Expr → Bool
  | .const q => q == 1
  | _ => false

/-- Model of `is_zero`: the node is a `ConstNode` whose value equals 0. -/
def is_zero : Expr → Bool
  | .const q => q == 0
  | _ => false

/-- The `l->getType() == ExprType::Constant` test together with the
`l->eval({})` read that the folding branches of the smart constructors
perform: returns the constant's value when the node is a `ConstNode`. -/
def constVal? : Expr → Option ℚ
  | .const q => some q
  | _ => none

/-- Model of `del_mult`: if either operand is the syntactic zero constant
return `Constant(0)`; if `l` is the one constant return `r`; if `r` is the
one constant return `l`; if both are constants fold by multiplication; else
construct the `BinaryOpNode` with the given tag.  (`del_mult` is only ever
called with `ExprType::Multiply`, but like the source it takes the tag as a
parameter.) -/
def del_mult (op : Op) (l r : Expr) : Expr :=
  if is_zero l || is_zero r then .const 0
  else if is_one l then r
  else if is_one r then l
  else
    match constVal? l, constVal? r with
    | some a, some b => .const (a * b)
    | _, _ => .binop op l r

/-- Model of `del_zero`: if `l` is the syntactic zero constant, return
`(Subtract ? Expression(-1) : Expression(1)) * Expression(r)` — that
multiplication is `Expression::operator*`, i.e. `del_mult` (the trailing
`clone()` is a deep copy, the identity on the modelled tree); if `r` is
the zero constant return `l`; if both are constants fold by `+`/`-`; else
construct the `BinaryOpNode`. -/
def del_zero (op : Op) (l r : Expr) : Expr :=
  if is_zero l then del_mult .mul (.const (if op = .sub then -1 else 1)) r
  else if is_zero r then l
  else
    match constVal? l, constVal? r with
    | some a, some b => .const (a + (if op = .add then b else -b))
    | _, _ => .binop op l r

/-- Model of `del_div`: if `r` is the one constant return `l`; if `l` is the
zero constant return `Constant(0)`; if both are constants fold by division;
else construct. -/
def del_div (op : Op) (l r : Expr) : Expr :=
  if is_one r then l
  else if is_zero l then .const 0
  else
    match constVal? l, constVal? r with
    | some a, some b => .const (a / b)
    | _, _ => .binop op l r

/-- Model of `del_pow`: if `r` is the one constant return `l`; if `r` is the
zero constant return `Constant(1)`; if both are constants fold through
`std::pow`; else construct. -/
def del_pow (TD : Transcendentals) (op : Op) (l r : Expr) : Expr :=
  if is_one r then l
  else if is_zero r then .const 1
  else
    match constVal? l, constVal? r with
    | some a, some b => .const (TD.powF a b)
    | _, _ => .binop op l r

/-- Model of `Node::diff`.  `ConstNode::diff` returns `Constant(0)`;
`VarNode::diff` returns `Constant(1)` or `Constant(0)`; `BinaryOpNode::diff`
and `FunctionNode::diff` build the textbook derivative through the smart
constructors exactly as the source does (the interspersed `clone()` calls
are deep copies, identities on the modelled tree). -/
def diffE (TD : Transcendentals) : Expr → String → Expr
  | .const _, _ => .const 0
  | .var v, d => .const (if v = d then 1 else 0)
  | .binop .add l r, d => del_zero .add (diffE TD l d) (diffE TD r d)
  | .binop .sub l r, d => del_zero .sub (diffE TD l d) (diffE TD r d)
  | .binop .mul l r, d =>
      del_zero .add (del_mult .mul (diffE TD l d) r) (del_mult .mul l (diffE TD r d))
  | .binop .div l r, d =>
      let num := del_zero .sub (del_mult .mul (diffE TD l d) r) (del_mult .mul l (diffE TD r d))
      let den := del_pow TD .pow r (.const 2)
      del_div .div num den
  | .binop .pow l r, d =>
      let bigLeft := del_pow TD .pow l r
      let smallLeft := del_mult .mul (diffE TD l d) (del_div .div r l)
      let smallRight := del_mult .mul (diffE TD r d) (.func .ln l)
      del_mult .mul bigLeft (del_zero .add smallLeft smallRight)
  | .func .sin a, d => del_mult .mul (.func .cos a) (diffE TD a d)
  | .func .cos a, d =>
      del_mult .mul (del_mult .mul (.const (-1)) (.func .sin a)) (diffE TD a d)
  | .func .exp a, d => del_mult .mul (.func .exp a) (diffE TD a d)
  | .func .ln a, d => del_mult .mul (del_div .div (.const 1) a) (diffE TD a d)

/-- Big-endian decimal digit characters of a natural number, empty for `0`
(helper with an explicit iteration budget so that the definition computes by
kernel reduction; the budget `fuel = n` always suffices). -/
def digitsGo : ℕ → ℕ → List Char
  | _, 0 => []
  | 0, _ + 1 => []
  | fuel + 1, n + 1 =>
      digitsGo fuel ((n + 1) / 10) ++ [Char.ofNat (48 + (n + 1) % 10)]

/-- Big-endian decimal digit characters of a natural number (empty for 0). -/
def digitsBE (n : ℕ) : List Char := digitsGo n n

/-- Decimal rendering of the integer part: `"0"` for zero, the digits
otherwise (what `%Lf` prints left of the decimal point). -/
def intChars (n : ℕ) : List Char :=
  if n = 0 then [ '0' ] else digitsBE n

/-- Zero-padding to six characters on the left (what `%Lf` prints right of
the decimal point for the fractional value). -/
def pad6 (cs : List Char) : List Char :=
  List.replicate (6 - cs.length) ( '0' ) ++ cs

/-- Model of `std::to_string` on the numeric domain: `%Lf` formatting, i.e.
optional minus sign, the integer part, a decimal point, and exactly six
fractional digits of the value rounded to six decimal places.  It is exact
whenever the value times `10^6` is an integer — every constant appearing in
a theorem below is of that shape (on other values `%Lf` rounds the binary
`long double`, whose exact decimal expansion a rational model cannot see;
no theorem depends on such a value). -/
def cppToString (q : ℚ) : String :=
  let m : ℕ := (2 * q.num.natAbs * 1000000 + q.den) / (2 * q.den)
  String.mk ((if q.num < 0 then [ '-' ] else [])
    ++ intChars (m / 1000000) ++ '.' :: pad6 (digitsBE (m % 1000000)))

/-- Model of `ExprTypeToString` restricted to the binary operator tags. -/
def opStr : Op → String
  | .add => "+"
  | .sub => "-"
  | .mul => "*"
  | .div => "/"
  | .pow => "^"

/-- Model of `ExprTypeToString` restricted to the function tags. -/
def fnStr : Fn → String
  | .sin => "sin"
  | .cos => "cos"
  | .ln => "ln"
  | .exp => "exp"

/-- Model of `Node::to_string`: a `ConstNode` renders through
`std::to_string`; a `VarNode` renders its name; a `BinaryOpNode` renders
fully parenthesized as `"(" + left + symbol + right + ")"`; a `FunctionNode`
renders as `name + "(" + arg + ")"`. -/
def to_string : Expr → String
  | .const q => cppToString q
  | .var v => v
  | .binop op l r => "(" ++ to_string l ++ opStr op ++ to_string r ++ ")"
  | .func f a => fnStr f ++ "(" ++ to_string a ++ ")"

/-- Parse-time failure.  `msg` models a `throw std::runtime_error(...)` with
the thrown message; `underflow` models the undefined behavior of a `pop()`
or `top()` executed on an empty `std::stack` (the model aborts at the first
such operation). -/
inductive PErr where
  | msg : String → PErr
  | underflow
deriving DecidableEq, Repr

/-- Model of the free function `priority` (3 for the power operator, 2 for
multiplicative, 1 for additive, -1 for anything else). -/
def priority (op : Char) : Int :=
  if op = '^' then 3
  else if op = '+' || op = '-' then 1
  else if op = '*' || op = '/' then 2
  else -1

/-- Model of the free function `is_operator`. -/
def is_operator (c : Char) : Bool :=
  c = '+' || c = '-' || c = '*' || c = '/' || c = '^'

/-- The preprocessing loop at the top of `make_expression`: spaces are
dropped, alphabetic characters are lowered, everything else is kept. -/
def preprocess (t : String) : List Char :=
  (t.toList.filter (fun c => c ≠ ' ')).map
    (fun c => if c.isAlpha then c.toLower else c)

/-- The characters a number token may contain (`std::isdigit(c) || c == '.'`
in the literal-scanning loop). -/
def numChar (c : Char) : Bool := c.isDigit || c = '.'

/-- Big-endian digit characters to a natural number (the arithmetic
`std::stold` performs on a digit run). -/
def natFromChars (cs : List Char) : ℕ :=
  cs.foldl (fun a c => 10 * a + (c.toNat - 48)) 0

/-- Model of `std::stold` on the scanned number token: the longest prefix of
decimal digits is the integer part; if a dot follows, the digit run after it
is the fractional part; any remaining characters (such as a second dot) are
ignored, exactly as `stold` stops at the first character that cannot extend
the literal. -/
def stoldM (cs : List Char) : ℚ :=
  let ip := cs.takeWhile Char.isDigit
  let rest := cs.dropWhile Char.isDigit
  let fp :=
    match rest with
    | '.' :: r => r.takeWhile Char.isDigit
    | _ => []
  (natFromChars ip : ℚ) + (natFromChars fp : ℚ) / 10 ^ fp.length

/-- The function-name lookup (`functions.count(token)` /
`functions[token]`): the four keys of the map. -/
def fnOf? (t : String) : Option Fn :=
  if t = "sin" then some .sin
  else if t = "cos" then some .cos
  else if t = "ln" then some .ln
  else if t = "exp" then some .exp
  else none

/-- The function-argument scan of `make_expression`: starting just after the
opening parenthesis with `balance = 1`, characters are collected while the
balance stays positive; the parenthesis that takes the balance to zero is
dropped and scanning resumes after it.  Returns the collected argument and
the remaining input (everything collected when the input ends early, as in
the source). -/
def scanArg : List Char → ℕ → List Char × List Char
  | [], _ => ([], [])
  | c :: rest, bal =>
      let bal' := if c = '(' then bal + 1 else if c = ')' then bal - 1 else bal
      if bal' = 0 then ([], rest)
      else
        let p := scanArg rest bal'
        (c :: p.1, p.2)

/-- One combining step shared by the three pop-and-combine loops of
`make_expression`: pop `right`, pop `left` (each a `top()`+`pop()` on the
operand stack — empty stack is the modelled underflow), then run the
`if (op == '+') ... if (op == '^') ...` chain, which pushes the combination
built by the corresponding `Expression` operator (`operator+` is `del_zero`
with Add, `operator-` is `del_zero` with Subtract, `operator*` is
`del_mult`, `operator/` is `del_div`, `operator^` is `del_pow`); a popped
`'('` (possible in the end-of-input drain) matches no branch, so the two
operands are discarded and nothing is pushed. -/
def combineStep (TD : Transcendentals) (op : Char) : List Expr → Except PErr (List Expr)
  | right :: rest1 =>
      match rest1 with
      | left :: rest2 =>
          if op = '+' then .ok (del_zero .add left right :: rest2)
          else if op = '-' then .ok (del_zero .sub left right :: rest2)
          else if op = '*' then .ok (del_mult .mul left right :: rest2)
          else if op = '/' then .ok (del_div .div left right :: rest2)
          else if op = '^' then .ok (del_pow TD .pow left right :: rest2)
          else .ok rest2
      | [] => .error .underflow
  | [] => .error .underflow

/-- The pop-and-combine loop run on a binary operator token:
`while (!ops.empty() && priority(ops.top()) >= priority(s[i]))`.  Returns
the new operand stack and what is left of the operator stack. -/
def popGE (TD : Transcendentals) (p : Int) :
    List Char → List Expr → Except PErr (List Expr × List Char)
  | [], vals => .ok (vals, [])
  | o :: os, vals =>
      if priority o ≥ p then
        match combineStep TD o vals with
        | .error e => .error e
        | .ok vals' => popGE TD p os vals'
      else .ok (vals, o :: os)

/-- The pop-and-combine loop run on a closing parenthesis:
`while (!ops.empty() && ops.top() != '(')` followed by the unconditional
`ops.pop()`.  When the loop ends because the operator stack is empty, that
final `pop()` underflows. -/
def popUntilParen (TD : Transcendentals) :
    List Char → List Expr → Except PErr (List Expr × List Char)
  | [], _ => .error .underflow
  | '(' :: os, vals => .ok (vals, os)
  | o :: os, vals =>
      match combineStep TD o vals with
      | .error e => .error e
      | .ok vals' => popUntilParen TD os vals'

/-- The end-of-input drain: `while (!ops.empty())`, popping and combining
every remaining operator (including any leftover `'('`, which discards two
operands). -/
def drain (TD : Transcendentals) : List Char → List Expr → Except PErr (List Expr)
  | [], vals => .ok vals
  | o :: os, vals =>
      match combineStep TD o vals with
      | .error e => .error e
      | .ok vals' => drain TD os vals'

/-- The main token loop of `make_expression`, one step per iteration of the
`for` loop over the preprocessed string.  The arguments mirror the loop
state: the remaining input, the previously consumed character (`s[i-1]`,
`none` at the very start), the operand stack `vals` and the operator stack
`ops`.  `recur` is the recursive call `make_expression<T>` used for function
arguments and the unary-minus operand; the natural-number argument bounds
the number of remaining loop iterations (each iteration consumes at least
one character, so the entry points pass the input length and the `0` case
is unreachable from them).

Branches, in source order: skip a space; scan a numeric literal (digits and
dots) and push `Expression(stold(num))`; scan an alphabetic token — a known
function name must be followed by `'('` (else `throw "Expected '('"`), its
argument is scanned by parenthesis balance, must be nonempty (else
`throw "Expected argument\n"`) and is parsed recursively, while any other
token is pushed as a variable; an operator at the start or right after
another operator is the unary case — for `'-'` the source collects operand
characters starting at the `'-'` itself, which is an operator, so the
collected substring is always empty and the recursive parse of `""`
executes `vals.top()` on an empty stack (the modelled underflow; were it to
return, the source re-enters this same branch with unchanged state, looping
forever, so the `.ok` arm below is unreachable), while any other operator
throws `"Incorrect expression"`; otherwise a binary operator pops while the
stack top has greater-or-equal priority and is then pushed; `'('` is pushed
on the operator stack; `')'` pops and combines until the matching `'('`;
any other character falls through every branch and is skipped. -/
def pLoopN (TD : Transcendentals) (recur : String → Except PErr Expr) :
    ℕ → List Char → Option Char → List Expr → List Char → Except PErr Expr
  | _, [], _, vals, ops =>
      match drain TD ops vals with
      | .error e => .error e
      | .ok [] => .error .underflow
      | .ok (top :: _) => .ok top
  | 0, _ :: _, _, _, _ => .error .underflow
  | n + 1, c :: cs, prev, vals, ops =>
      if c = ' ' then pLoopN TD recur n cs (some c) vals ops
      else if c.isDigit then
        let tok := c :: cs.takeWhile numChar
        pLoopN TD recur n (cs.dropWhile numChar)
          (some ((cs.takeWhile numChar).getLastD c))
          (.const (stoldM tok) :: vals) ops
      else if c.isAlpha then
        let tok := c :: cs.takeWhile Char.isAlpha
        let rest := cs.dropWhile Char.isAlpha
        match fnOf? (String.mk tok) with
        | some fn =>
            match rest with
            | '(' :: r2 =>
                let p := scanArg r2 1
                if p.1.isEmpty then .error (.msg "Expected argument\n")
                else
                  match recur (String.mk p.1) with
                  | .error e => .error e
                  | .ok sub => pLoopN TD recur n p.2 (some ')') (.func fn sub :: vals) ops
            | _ => .error (.msg "Expected '('")
        | none =>
            pLoopN TD recur n rest
              (some ((cs.takeWhile Char.isAlpha).getLastD c))
              (.var (String.mk tok) :: vals) ops
      else if is_operator c then
        if prev.elim true is_operator then
          if c = '-' then
            match recur (String.mk ((c :: cs).takeWhile (fun x => ¬ is_operator x))) with
            | .error e => .error e
            | .ok _ => .error .underflow
          else .error (.msg "Incorrect expression")
        else
          match popGE TD (priority c) ops vals with
          | .error e => .error e
          | .ok p => pLoopN TD recur n cs (some c) p.1 (c :: p.2)
      else if c = '(' then pLoopN TD recur n cs (some c) vals (c :: ops)
      else if c = ')' then
        match popUntilParen TD ops vals with
        | .error e => .error e
        | .ok p => pLoopN TD recur n cs (some c) p.1 p.2
      else pLoopN TD recur n cs (some c) vals ops

/-- The recursion of `make_expression` (function arguments and the
unary-minus operand re-enter the parser on a substring).  The outer natural
number bounds the recursion depth; every recursive call is on a strictly
shorter string, so the depth `t.length + 1` supplied by `make_expression`
makes the `0` case unreachable. -/
def parseFuel (TD : Transcendentals) : ℕ → String → Except PErr Expr
  | 0, _ => .error .underflow
  | f + 1, t =>
      let cs := preprocess t
      pLoopN TD (parseFuel TD f) cs.length cs none [] []

/-- Model of `make_expression<T>`: preprocess, run the token loop, drain the
operator stack and return `vals.top()` (underflow when the operand stack
ends empty). -/
def make_expression (TD : Transcendentals) (t : String) : Except PErr Expr :=
  parseFuel TD (t.length + 1) t

/-- The variable names occurring in a tree, in left-to-right order. -/
def varsOf : Expr → List String
  | .const _ => []
  | .var v => [v]
  | .binop _ l r => varsOf l ++ varsOf r
  | .func _ a => varsOf a

/-- Decidable equality for parser results, so that concrete runs of the
model can be checked by `decide`. -/
instance : DecidableEq (Except PErr Expr) := fun a b =>
  match a, b with
  | .ok x, .ok y =>
      if h : x = y then isTrue (by rw [h]) else isFalse (by simp [h])
  | .error x, .error y =>
      if h : x = y then isTrue (by rw [h]) else isFalse (by simp [h])
  | .ok _, .error _ => isFalse (by simp)
  | .error _, .ok _ => isFalse (by simp)

/-- Decidable equality for evaluation results. -/
instance : DecidableEq (Except EvalErr ℚ) := fun a b =>
  match a, b with
  | .ok x, .ok y =>
      if h : x = y then isTrue (by rw [h]) else isFalse (by simp [h])
  | .error x, .error y =>
      if h : x = y then isTrue (by rw [h]) else isFalse (by simp [h])
  | .ok _, .error _ => isFalse (by simp)
  | .error _, .ok _ => isFalse (by simp)

/-- The expression the parser rebuilds from a serialized tree: every binary
node is re-combined through the corresponding `Expression` operator (the
smart constructors), every function node through the `functions` map, and
every constant through `stold` of its `std::to_string` rendering (the
identity on the representable constants the round-trip theorem quantifies
over). -/
def reparseE (TD : Transcendentals) : Expr → Expr
  | .const q => .const q
  | .var v => .var v
  | .binop .add l r => del_zero .add (reparseE TD l) (reparseE TD r)
  | .binop .sub l r => del_zero .sub (reparseE TD l) (reparseE TD r)
  | .binop .mul l r => del_mult .mul (reparseE TD l) (reparseE TD r)
  | .binop .div l r => del_div .div (reparseE TD l) (reparseE TD r)
  | .binop .pow l r => del_pow TD .pow (reparseE TD l) (reparseE TD r)
  | .func f a => .func f (reparseE TD a)

/-- Exact number of iterations of the parser's token loop consumed by the
serialization of a tree: one for a constant's literal, one for a whole
function call (name, parenthesis and argument are consumed in a single
iteration), and the two parentheses plus the operator symbol around a
binary node. -/
def tks : Expr → ℕ
  | .const _ => 1
  | .var _ => 1
  | .binop _ l r => tks l + tks r + 3
  | .func _ _ => 1

/-- Recursion depth `make_expression` needs for a serialized tree: one
nested call per function-argument level. -/
def needF : Expr → ℕ
  | .const _ => 0
  | .var _ => 0
  | .binop _ l r => max (needF l) (needF r)
  | .func _ a => needF a + 1

/-- Serialized character list of a tree. -/
def serL (e : Expr) : List Char := (to_string e).data

/-- The constants admissible in the round-trip theorem: nonnegative values
with at most six decimal places (exactly the values on which
`std::to_string` followed by `std::stold` is the identity and exact in
`long double`). -/
def constOK (q : ℚ) : Prop := ∃ n : ℕ, q = (n : ℚ) / 1000000

/-- All constants of the tree admissible, and no Variable nodes. -/
def goodE : Expr → Prop
  | .const q => constOK q
  | .var _ => False
  | .binop _ l r => goodE l ∧ goodE r
  | .func _ a => goodE a

/-- Parenthesis-balance update of one character (the `balance++`/
`balance--` of the function-argument scan). -/
def delta (b : ℕ) (c : Char) : ℕ :=
  if c = '(' then b + 1 else if c = ')' then b - 1 else b

/-- Balance after a character list. -/
def endBal (b : ℕ) (cs : List Char) : ℕ := cs.foldl delta b

/-- The balance stays strictly positive after every prefix. -/
def prefOK : ℕ → List Char → Prop
  | _, [] => True
  | b, c :: cs => 0 < delta b c ∧ prefOK (delta b c) cs

/-- The continuations the round-trip induction appends after a serialized
subtree: either nothing, or a closing parenthesis, or a binary operator
symbol — never a character that could extend a number or identifier
token. -/
def restOK (rest : List Char) : Prop :=
  rest = [] ∨ ∃ h t, rest = h :: t ∧ (h = ')' ∨ is_operator h = true)

theorem del_mult_zero_left (op : Op) (r : Expr) :
    del_mult op (.const 0) r = .const 0 := by
  simp [del_mult, is_zero]

theorem del_mult_zero_right (op : Op) (l : Expr) :
    del_mult op l (.const 0) = .const 0 := by
  simp [del_mult, is_zero]

theorem del_zero_zero_zero (op : Op) :
    del_zero op (.const 0) (.const 0) = .const 0 := by
  simp [del_zero, is_zero, del_mult_zero_right]

theorem del_div_zero_left (op : Op) (r : Expr) :
    del_div op (.const 0) r = .const 0 := by
  by_cases h : is_one r = true
  · simp [del_div, h]
  · simp [del_div, h, is_zero]

/-- Whenever the differentiation variable does not occur in the tree, every
`diff` of the source collapses to the single literal `Constant(0)`: each
node's derivative is built from child derivatives that are already
`Constant(0)`, and the smart constructors eliminate them. -/
theorem diffE_eq_zero_of_not_mem (TD : Transcendentals) (e : Expr) (d : String)
    (h : d ∉ varsOf e) : diffE TD e d = .const 0 := by
  induction e with
  | const q => simp [diffE]
  | var v =>
      simp [varsOf] at h
      simp [diffE, Ne.symm h]
  | binop op l r ihl ihr =>
      simp [varsOf] at h
      have hl := ihl h.1
      have hr := ihr h.2
      cases op with
      | add => simp [diffE, hl, hr, del_zero_zero_zero]
      | sub => simp [diffE, hl, hr, del_zero_zero_zero]
      | mul =>
          simp [diffE, hl, hr, del_mult_zero_left, del_mult_zero_right,
            del_zero_zero_zero]
      | div =>
          simp [diffE, hl, hr, del_mult_zero_left, del_mult_zero_right,
            del_zero_zero_zero, del_div_zero_left]
      | pow =>
          simp [diffE, hl, hr, del_mult_zero_left, del_mult_zero_right,
            del_zero_zero_zero]
  | func f a iha =>
      simp [varsOf] at h
      have ha := iha h
      cases f with
      | sin => simp [diffE, ha, del_mult_zero_right]
      | cos => simp [diffE, ha, del_mult_zero_right]
      | exp => simp [diffE, ha, del_mult_zero_right]
      | ln => simp [diffE, ha, del_mult_zero_right]

theorem is_zero_iff (e : Expr) : is_zero e = true ↔ e = .const 0 := by
  cases e <;> simp [is_zero]

theorem is_one_iff (e : Expr) : is_one e = true ↔ e = .const 1 := by
  cases e <;> simp [is_one]

/-- C8 (confirmed).  The multiplication smart constructor `del_mult` returns
`Constant(0)` when either operand is the syntactic zero constant; `r` when
`l` is the one constant; `l` when `r` is the one constant; the folded
constant when both operands are constants; and otherwise the constructed
Multiply node with `l` and `r` as children — with the branches taken in
exactly this order of precedence. -/
theorem claim_C8_del_mult_cases (l r : Expr) :
    ((l = .const 0 ∨ r = .const 0) → del_mult .mul l r = .const 0) ∧
    (l = .const 1 → r ≠ .const 0 → del_mult .mul l r = r) ∧
    (r = .const 1 → l ≠ .const 0 → del_mult .mul l r = l) ∧
    (∀ a b : ℚ, l = .const a → r = .const b →
      a ≠ 0 → b ≠ 0 → a ≠ 1 → b ≠ 1 → del_mult .mul l r = .const (a * b)) ∧
    (l ≠ .const 0 → r ≠ .const 0 → l ≠ .const 1 → r ≠ .const 1 →
      (constVal? l = none ∨ constVal? r = none) →
      del_mult .mul l r = .binop .mul l r) := by
  have fz : ∀ e : Expr, e ≠ .const 0 → is_zero e = false := by
    intro e he
    rw [Bool.eq_false_iff]
    intro hc
    exact he ((is_zero_iff e).mp hc)
  have fo : ∀ e : Expr, e ≠ .const 1 → is_one e = false := by
    intro e he
    rw [Bool.eq_false_iff]
    intro hc
    exact he ((is_one_iff e).mp hc)
  have z1 : is_zero (Expr.const 1) = false := by simp [is_zero]
  have o1 : is_one (Expr.const 1) = true := by simp [is_one]
  refine ⟨?_, ?_, ?_, ?_, ?_⟩
  · rintro (h | h) <;> subst h <;> simp [del_mult, is_zero]
  · rintro h hr
    subst h
    simp [del_mult, z1, o1, fz r hr]
  · rintro h hl
    subst h
    by_cases h1 : l = .const 1
    · subst h1
      simp [del_mult, z1, o1]
    · simp [del_mult, z1, o1, fz l hl, fo l h1]
  · rintro a b hl hr ha hb ha1 hb1
    subst hl
    subst hr
    have za : is_zero (Expr.const a) = false := by simp [is_zero, ha]
    have zb : is_zero (Expr.const b) = false := by simp [is_zero, hb]
    have oa : is_one (Expr.const a) = false := by simp [is_one, ha1]
    have ob : is_one (Expr.const b) = false := by simp [is_one, hb1]
    simp [del_mult, za, zb, oa, ob, constVal?]
  · rintro h0l h0r h1l h1r hnc
    have step : del_mult .mul l r =
        (match constVal? l, constVal? r with
          | some a, some b => Expr.const (a * b)
          | _, _ => Expr.binop .mul l r) := by
      simp [del_mult, fz l h0l, fz r h0r, fo l h1l, fo r h1r]
    rcases hnc with hn | hn
    · rw [step, hn]
    · rw [step, hn]
      rcases hcl : constVal? l with _ | a <;> simp

/-- C8 witness: the five branches of `claim_C8_del_mult_cases` applied at
concrete operands. -/
theorem claim_C8_witness :
    del_mult .mul (.const 0) (.var "x") = .const 0 ∧
    del_mult .mul (.const 1) (.var "x") = .var "x" ∧
    del_mult .mul (.var "x") (.const 1) = .var "x" ∧
    del_mult .mul (.const 2) (.const 3) = .const (2 * 3) ∧
    del_mult .mul (.var "x") (.var "y") = .binop .mul (.var "x") (.var "y") :=
  ⟨(claim_C8_del_mult_cases (.const 0) (.var "x")).1 (Or.inl rfl),
   (claim_C8_del_mult_cases (.const 1) (.var "x")).2.1 rfl (by simp),
   (claim_C8_del_mult_cases (.var "x") (.const 1)).2.2.1 rfl (by simp),
   (claim_C8_del_mult_cases (.const 2) (.const 3)).2.2.2.1 2 3 rfl rfl
     (by norm_num) (by norm_num) (by norm_num) (by norm_num),
   (claim_C8_del_mult_cases (.var "x") (.var "y")).2.2.2.2
     (by simp) (by simp) (by simp) (by simp) (Or.inl rfl)⟩

/-- C2 (code_bug).  The unary-minus rewrite described by the spec never
happens: on a `'-'` at the start of the input or right after another
operator, the operand scan of `make_expression` starts on the `'-'` itself
— which `is_operator` accepts — so the collected operand substring is
always empty, and the recursive `make_expression("")` executes
`vals.top()` on an empty operand stack (undefined behavior, modelled as
`PErr.underflow`) instead of pushing `Constant(-1) * operand`.  This
evaluates the model at three failing inputs: a leading unary minus before
a variable, before a literal, and a minus right after a binary operator. -/
theorem claim_C2_unary_minus_underflows :
    make_expression cppTD ("-x") = .error .underflow ∧
    make_expression cppTD ("-5") = .error .underflow ∧
    make_expression cppTD ("1+-2") = .error .underflow := by
  refine ⟨?_, ?_, ?_⟩ <;> with_unfolding_all rfl

/-- C5 counterexample.  `parse("sin x")` does not fail: whitespace is
stripped before tokenizing, so the input becomes `"sinx"`, a single run of
letters that is not a known function name, and the parser succeeds,
producing the Variable `"sinx"`. -/
theorem claim_C5_cex :
    make_expression cppTD ("sin x") = .ok (.var "sinx") := by
  with_unfolding_all rfl

/-- C5 amended.  `parse("sin x")` succeeds with `Variable("sinx")` (the
space is stripped, merging the function name and the identifier into one
letter run); the ParseError `"Expected '('"` is raised exactly when a
recognized function name is immediately followed — after stripping — by a
character other than a letter or `'('`, as in `"sin*x"` or a bare
`"sin"`. -/
theorem claim_C5_amended :
    make_expression cppTD ("sin x") = .ok (.var "sinx") ∧
    make_expression cppTD ("sin*x") = .error (.msg "Expected '('") ∧
    make_expression cppTD ("sin") = .error (.msg "Expected '('") := by
  refine ⟨?_, ?_, ?_⟩ <;> with_unfolding_all rfl

/-- C6 counterexample.  On the unbalanced input `")"` the parser does not
fail with a named ParseError: the `')'` branch runs its pop-and-combine
loop on the empty operator stack and then executes the unconditional
`ops.pop()` on that empty stack — the modelled underflow (undefined
behavior in the C++). -/
theorem claim_C6_cex :
    make_expression cppTD (")") = .error .underflow := by
  with_unfolding_all rfl

/-- C6 amended.  Unbalanced parentheses are not detected as a named error:
a `')'` without a matching `'('` pops the empty operator stack; a leftover
`'('` at drain time discards two operands and underflows the operand stack
(`"("` and `"(1+2"`); and some inputs with a leftover `'('` even parse
successfully by silently discarding operands (`"x2(3"` returns the
Variable `x`).  No named ParseError is raised in any of these runs. -/
theorem claim_C6_amended :
    make_expression cppTD (")") = .error .underflow ∧
    make_expression cppTD ("(") = .error .underflow ∧
    make_expression cppTD ("(1+2") = .error .underflow ∧
    make_expression cppTD ("x2(3") = .ok (.var "x") := by
  refine ⟨?_, ?_, ?_, ?_⟩ <;> with_unfolding_all rfl

/-- Evaluation fails exactly when some variable of the tree is absent from
the bindings: the only throw in `eval` is the one in `VarNode::eval`, and
evaluation is strict, so it reaches every node unless an earlier lookup
already failed. -/
theorem evalD_error_iff (TD : Transcendentals) (e : Expr) (b : Bindings) :
    (∃ err, evalD TD e b = .error err) ↔ ∃ v ∈ varsOf e, b v = none := by
  induction e with
  | const q => simp [evalD, varsOf]
  | var v =>
      rcases hb : b v with _ | x <;> simp [evalD, varsOf, hb]
  | binop op l r ihl ihr =>
      constructor
      · rintro ⟨err, herr⟩
        rcases hl : evalD TD l b with el | lv
        · obtain ⟨v, hv, hbv⟩ := ihl.mp ⟨el, hl⟩
          exact ⟨v, by simp [varsOf, hv], hbv⟩
        · rcases hr : evalD TD r b with er | rv
          · obtain ⟨v, hv, hbv⟩ := ihr.mp ⟨er, hr⟩
            exact ⟨v, by simp [varsOf, hv], hbv⟩
          · rw [evalD] at herr
            rw [hl, hr] at herr
            cases op <;> simp [Bind.bind, Except.bind] at herr
      · rintro ⟨v, hv, hbv⟩
        rw [varsOf] at hv
        rcases List.mem_append.mp hv with hvl | hvr
        · obtain ⟨el, hl⟩ := ihl.mpr ⟨v, hvl, hbv⟩
          exact ⟨el, by rw [evalD, hl]; rfl⟩
        · rcases hl : evalD TD l b with el | lv
          · exact ⟨el, by rw [evalD, hl]; rfl⟩
          · obtain ⟨er, hr⟩ := ihr.mpr ⟨v, hvr, hbv⟩
            exact ⟨er, by rw [evalD, hl, hr]; rfl⟩
  | func f a iha =>
      constructor
      · rintro ⟨err, herr⟩
        rcases ha : evalD TD a b with ea | av
        · obtain ⟨v, hv, hbv⟩ := iha.mp ⟨ea, ha⟩
          exact ⟨v, by simp [varsOf, hv], hbv⟩
        · rw [evalD] at herr
          rw [ha] at herr
          cases f <;> simp [Bind.bind, Except.bind] at herr
      · rintro ⟨v, hv, hbv⟩
        rw [varsOf] at hv
        obtain ⟨ea, ha⟩ := iha.mpr ⟨v, hv, hbv⟩
        exact ⟨ea, by rw [evalD, ha]; rfl⟩

/-- C7 (confirmed).  Evaluation fails exactly when it reaches a Variable
node whose name is absent from the bindings (the only failure `eval` can
raise, and there is no implicit zero); a Variable whose name is bound
evaluates to the bound value, and an absent one raises the error naming
that variable.  Concretely, `parse("x+3")` yields the tree `x + 3`, whose
evaluation under the empty binding fails with the unbound-variable error
for `"x"` and under `{x : 2}` returns `5`. -/
theorem claim_C7_unbound_variable :
    (∀ (TD : Transcendentals) (e : Expr) (b : Bindings),
      (∃ err, evalD TD e b = .error err) ↔ ∃ v ∈ varsOf e, b v = none) ∧
    (∀ (TD : Transcendentals) (v : String) (b : Bindings) (x : ℚ),
      b v = some x → evalD TD (.var v) b = .ok x) ∧
    (∀ (TD : Transcendentals) (v : String) (b : Bindings),
      b v = none → evalD TD (.var v) b = .error (.unbound v)) ∧
    make_expression cppTD ("x+3") = .ok (.binop .add (.var "x") (.const 3)) ∧
    evalD cppTD (.binop .add (.var "x") (.const 3)) (fun _ => none)
      = .error (.unbound "x") ∧
    evalD cppTD (.binop .add (.var "x") (.const 3))
      (fun s => if s = "x" then some 2 else none) = .ok 5 := by
  refine ⟨evalD_error_iff, ?_, ?_, ?_, ?_, ?_⟩
  · intro TD v b x hb
    simp [evalD, hb]
  · intro TD v b hb
    simp [evalD, hb]
  · with_unfolding_all rfl
  · with_unfolding_all rfl
  · with_unfolding_all rfl

/-- C7 witness: the bound- and unbound-variable clauses of
`claim_C7_unbound_variable` applied at a concrete binding map. -/
theorem claim_C7_witness :
    evalD cppTD (.var "x") (fun s => if s = "x" then some 2 else none) = .ok 2 ∧
    evalD cppTD (.var "y") (fun s => if s = "x" then some 2 else none)
      = .error (.unbound "y") :=
  ⟨claim_C7_unbound_variable.2.1 cppTD "x" _ 2 (by simp),
   claim_C7_unbound_variable.2.2.1 cppTD "y" _ (by simp)⟩

/-- C9 (confirmed).  For every tree in which no Variable node carries the
differentiation variable's name — other variables, binary operators and
functions allowed — `diff` returns exactly the syntactic `Constant(0)`
node, not merely a tree evaluating to zero. -/
theorem claim_C9_diff_const_zero (TD : Transcendentals) (e : Expr) (d : String)
    (h : d ∉ varsOf e) : diffE TD e d = .const 0 :=
  diffE_eq_zero_of_not_mem TD e d h

/-- C9 witness: differentiating `y * 3 + sin(y)` with respect to `x` gives
the single `Constant(0)` node. -/
theorem claim_C9_witness :
    diffE cppTD (.binop .add (.binop .mul (.var "y") (.const 3))
      (.func .sin (.var "y"))) ("x") = .const 0 :=
  claim_C9_diff_const_zero cppTD
    (.binop .add (.binop .mul (.var "y") (.const 3)) (.func .sin (.var "y")))
    ("x") (by decide)

/-- C1 counterexample.  Differentiating the constant-only expression
`Constant(5)` does yield the single `Constant(0)` node, but its
serialization is `std::to_string((long double)0)`, the string
`"0.000000"` — not the string `"0"` that the claim requires. -/
theorem claim_C1_cex :
    to_string (diffE cppTD (.const 5) ("x")) = "0.000000" ∧
    to_string (diffE cppTD (.const 5) ("x")) ≠ "0" := by
  have h : to_string (diffE cppTD (.const 5) ("x")) = "0.000000" := by
    with_unfolding_all rfl
  refine ⟨h, ?_⟩
  rw [h]
  decide

/-- The zero constant serializes to the six-decimal string that
`std::to_string` produces. -/
theorem to_string_const_zero : to_string (.const 0) = "0.000000" := by
  with_unfolding_all rfl

/-- C1 amended.  Differentiating any expression built solely from Constants
(no Variable node at all, hence no occurrence of the differentiation
variable) yields exactly the single `Constant(0)` node — not a larger
zero-valued tree — and its serialization is `"0.000000"`, the
`std::to_string` rendering of zero, rather than the bare `"0"` of the
original claim. -/
theorem claim_C1_amended (TD : Transcendentals) (e : Expr) (d : String)
    (h : varsOf e = []) :
    diffE TD e d = .const 0 ∧ to_string (diffE TD e d) = "0.000000" := by
  have h0 : diffE TD e d = .const 0 :=
    diffE_eq_zero_of_not_mem TD e d (by simp [h])
  exact ⟨h0, by rw [h0]; exact to_string_const_zero⟩

/-- C1 witness: `claim_C1_amended` applied to the constant-only expression
`2 + 3 * 4`. -/
theorem claim_C1_witness :
    diffE cppTD (.binop .add (.const 2) (.binop .mul (.const 3) (.const 4)))
      ("x") = .const 0 ∧
    to_string (diffE cppTD
      (.binop .add (.const 2) (.binop .mul (.const 3) (.const 4))) ("x"))
      = "0.000000" :=
  claim_C1_amended cppTD
    (.binop .add (.const 2) (.binop .mul (.const 3) (.const 4))) ("x") rfl

theorem u32_le_iff (a b : UInt32) : a ≤ b ↔ a.toNat ≤ b.toNat := by
  rw [UInt32.le_def, BitVec.le_def]
  exact Iff.rfl

theorem u32_lt_iff (a b : UInt32) : a < b ↔ a.toNat < b.toNat := by
  rw [UInt32.lt_def, BitVec.lt_def]
  exact Iff.rfl

theorem lower_val (c : Char) (h : c.isLower = true) :
    97 ≤ c.val.toNat ∧ c.val.toNat ≤ 122 := by
  simp [Char.isLower] at h
  obtain ⟨h1, h2⟩ := h
  rw [u32_le_iff] at h1 h2
  constructor
  · simpa [UInt32.size] using h1
  · simpa [UInt32.size] using h2

theorem lower_char_facts (c : Char) (h : c.isLower = true) :
    c.isAlpha = true ∧ c.isDigit = false ∧ ¬(c = ' ') ∧
    is_operator c = false ∧ fnOf? (String.mk [c]) = none := by
  have hn := lower_val c h
  refine ⟨?_, ?_, ?_, ?_, ?_⟩
  · simp [Char.isAlpha, h]
  · simp [Char.isDigit]
    intro h1
    rw [u32_le_iff] at h1
    rw [u32_lt_iff]
    simp [UInt32.size] at h1 ⊢
    omega
  · intro hc
    subst hc
    exact absurd hn.1 (by decide)
  · have hne : c ≠ '+' ∧ c ≠ '-' ∧ c ≠ '*' ∧ c ≠ '/' ∧ c ≠ '^' := by
      refine ⟨?_, ?_, ?_, ?_, ?_⟩ <;> intro hc <;> subst hc <;>
        exact absurd hn.1 (by decide)
    simp [is_operator, hne.1, hne.2.1, hne.2.2.1, hne.2.2.2.1, hne.2.2.2.2]
  · simp [fnOf?, String.ext_iff]

theorem dropWhile_eq_self_of_takeWhile_nil {p : Char → Bool} {cs : List Char}
    (h : cs.takeWhile p = []) : cs.dropWhile p = cs := by
  cases cs with
  | nil => rfl
  | cons d ds =>
      rw [List.takeWhile_cons] at h
      rw [List.dropWhile_cons]
      by_cases hp : p d = true
      · rw [if_pos hp] at h
        exact absurd h (by simp)
      · rw [if_neg hp]

theorem pLoopN_var_step (TD : Transcendentals) (recur : String → Except PErr Expr)
    (n : ℕ) (x : Char) (hx : x.isLower = true) (cs : List Char)
    (htw : cs.takeWhile Char.isAlpha = [])
    (prev : Option Char) (vals : List Expr) (ops : List Char) :
    pLoopN TD recur (n + 1) (x :: cs) prev vals ops
      = pLoopN TD recur n cs (some x) (.var (String.mk [x]) :: vals) ops := by
  obtain ⟨hA, hD, hS, hO, hF⟩ := lower_char_facts x hx
  have hdw := dropWhile_eq_self_of_takeWhile_nil htw
  simp only [pLoopN]
  rw [if_neg hS, if_neg (by simp [hD]), if_pos (by simp [hA])]
  simp only [htw, hdw, hF, List.getLastD_nil]

theorem pLoopN_digit_step (TD : Transcendentals) (recur : String → Except PErr Expr)
    (n : ℕ) (x : Char) (hs : ¬(x = ' ')) (hd : x.isDigit = true) (cs : List Char)
    (htw : cs.takeWhile numChar = [])
    (prev : Option Char) (vals : List Expr) (ops : List Char) :
    pLoopN TD recur (n + 1) (x :: cs) prev vals ops
      = pLoopN TD recur n cs (some x) (.const (stoldM [x]) :: vals) ops := by
  have hdw := dropWhile_eq_self_of_takeWhile_nil htw
  simp only [pLoopN]
  rw [if_neg hs, if_pos (by simp [hd])]
  simp only [htw, hdw, List.getLastD_nil]

theorem pLoopN_hat_push (TD : Transcendentals) (recur : String → Except PErr Expr)
    (n : ℕ) (prevc : Char) (hprev : is_operator prevc = false)
    (cs : List Char) (vals : List Expr) :
    pLoopN TD recur (n + 1) ('^' :: cs) (some prevc) vals []
      = pLoopN TD recur n cs (some '^') vals ['^'] := by
  simp only [pLoopN]
  rw [if_neg (by decide), if_neg (by decide), if_neg (by decide), if_pos (by decide)]
  simp only [Option.elim]
  rw [if_neg (by simp [hprev])]
  simp [popGE]

theorem pLoopN_hat_combine (TD : Transcendentals) (recur : String → Except PErr Expr)
    (n : ℕ) (prevc : Char) (hprev : is_operator prevc = false)
    (cs : List Char) (ri le : Expr) (vs : List Expr) :
    pLoopN TD recur (n + 1) ('^' :: cs) (some prevc) (ri :: le :: vs) ['^']
      = pLoopN TD recur n cs (some '^') (del_pow TD .pow le ri :: vs) ['^'] := by
  simp only [pLoopN]
  rw [if_neg (by decide), if_neg (by decide), if_neg (by decide), if_pos (by decide)]
  simp only [Option.elim]
  rw [if_neg (by simp [hprev])]
  simp [popGE, combineStep, priority]

theorem pLoopN_end_hat (TD : Transcendentals) (recur : String → Except PErr Expr)
    (n : ℕ) (prev : Option Char) (ri le : Expr) (vs : List Expr) :
    pLoopN TD recur n [] prev (ri :: le :: vs) ['^']
      = .ok (del_pow TD .pow le ri) := by
  cases n <;> simp [pLoopN, drain, combineStep]

theorem del_pow_var_right (TD : Transcendentals) (op : Op) (l : Expr) (t : String) :
    del_pow TD op l (.var t) = .binop op l (.var t) := by
  rcases h : constVal? l with _ | a <;> simp [del_pow, is_one, is_zero, h, constVal?]

theorem del_pow_consts (TD : Transcendentals) (q r : ℚ)
    (h1 : ¬(r = 1)) (h0 : ¬(r = 0)) :
    del_pow TD .pow (.const q) (.const r) = .const (TD.powF q r) := by
  simp [del_pow, is_one, is_zero, h1, h0, constVal?]

theorem lower_toLower (c : Char) (h : c.isLower = true) : c.toLower = c := by
  have hn := lower_val c h
  rw [Char.toLower]
  simp only [ite_eq_right_iff]
  intro hc
  simp [Char.toNat] at hc
  omega

theorem c3_generic (a b c : Char) (ha : a.isLower = true) (hb : b.isLower = true)
    (hc : c.isLower = true) (TD : Transcendentals) :
    make_expression TD (String.mk [a, '^', b, '^', c]) =
      .ok (.binop .pow (.binop .pow (.var (String.mk [a])) (.var (String.mk [b])))
        (.var (String.mk [c]))) := by
  obtain ⟨haA, haD, haS, haO, haF⟩ := lower_char_facts a ha
  obtain ⟨hbA, hbD, hbS, hbO, hbF⟩ := lower_char_facts b hb
  obtain ⟨hcA, hcD, hcS, hcO, hcF⟩ := lower_char_facts c hc
  have hta := lower_toLower a ha
  have htb := lower_toLower b hb
  have htc := lower_toLower c hc
  have hh1 : ¬(('^' : Char) = ' ') := by decide
  have hh2 : ('^' : Char).isAlpha = false := by decide
  have hpre : preprocess (String.mk [a, '^', b, '^', c]) = [a, '^', b, '^', c] := by
    simp [preprocess, String.toList, List.filter_cons, List.map_cons,
      haS, hbS, hcS, hh1, hh2, haA, hbA, hcA, hta, htb, htc]
  have htwhat : List.takeWhile Char.isAlpha ['^', b, '^', c] = [] := by
    simp [List.takeWhile_cons, hh2]
  rw [make_expression]
  have hlen : (String.mk [a, '^', b, '^', c]).length = 5 := rfl
  rw [hlen]
  rw [parseFuel]
  rw [hpre]
  have h5 : ([a, '^', b, '^', c] : List Char).length = 0 + 1 + 1 + 1 + 1 + 1 := rfl
  rw [h5]
  rw [pLoopN_var_step TD (parseFuel TD 5) (0 + 1 + 1 + 1 + 1) a ha
    ['^', b, '^', c] htwhat none [] []]
  rw [pLoopN_hat_push TD (parseFuel TD 5) (0 + 1 + 1 + 1) a haO [b, '^', c]
    [.var (String.mk [a])]]
  rw [pLoopN_var_step TD (parseFuel TD 5) (0 + 1 + 1) b hb ['^', c]
    (by simp [List.takeWhile_cons, hh2]) (some '^') [.var (String.mk [a])] ['^']]
  rw [pLoopN_hat_combine TD (parseFuel TD 5) (0 + 1) b hbO [c]
    (.var (String.mk [b])) (.var (String.mk [a])) []]
  rw [del_pow_var_right]
  rw [pLoopN_var_step TD (parseFuel TD 5) 0 c hc [] rfl (some '^')
    [.binop .pow (.var (String.mk [a])) (.var (String.mk [b]))] ['^']]
  rw [pLoopN_end_hat]
  rw [del_pow_var_right]

theorem stoldM_two : stoldM [ '2' ] = 2 := by
  have ht : List.takeWhile Char.isDigit [ '2' ] = [ '2' ] := by decide
  have hd : List.dropWhile Char.isDigit [ '2' ] = [] := by decide
  have hc : (( '2' : Char).toNat - 48 : ℕ) = 2 := by decide
  simp only [stoldM, ht, hd, natFromChars, List.foldl, List.length_nil]
  rw [hc]
  norm_num

theorem stoldM_three : stoldM [ '3' ] = 3 := by
  have ht : List.takeWhile Char.isDigit [ '3' ] = [ '3' ] := by decide
  have hd : List.dropWhile Char.isDigit [ '3' ] = [] := by decide
  have hc : (( '3' : Char).toNat - 48 : ℕ) = 3 := by decide
  simp only [stoldM, ht, hd, natFromChars, List.foldl, List.length_nil]
  rw [hc]
  norm_num

theorem c3_concrete (TD : Transcendentals) (h23 : TD.powF 2 3 = 8)
    (h82 : TD.powF 8 2 = 64) :
    make_expression TD ("2^3^2") = .ok (.const 64) := by
  have hpre : preprocess ("2^3^2") = [ '2', '^', '3', '^', '2' ] := by decide
  rw [make_expression]
  have hlen : ("2^3^2" : String).length = 5 := by decide
  rw [hlen]
  rw [parseFuel]
  rw [hpre]
  have h5 : ([ '2', '^', '3', '^', '2' ] : List Char).length = 0 + 1 + 1 + 1 + 1 + 1 := rfl
  rw [h5]
  rw [pLoopN_digit_step TD (parseFuel TD 5) (0 + 1 + 1 + 1 + 1) ( '2' ) (by decide)
    (by decide) [ '^', '3', '^', '2' ] (by decide) none [] []]
  rw [stoldM_two]
  rw [pLoopN_hat_push TD (parseFuel TD 5) (0 + 1 + 1 + 1) ( '2' ) (by decide)
    [ '3', '^', '2' ] [.const 2]]
  rw [pLoopN_digit_step TD (parseFuel TD 5) (0 + 1 + 1) ( '3' ) (by decide)
    (by decide) [ '^', '2' ] (by decide) (some '^') [.const 2] [ '^' ]]
  rw [stoldM_three]
  rw [pLoopN_hat_combine TD (parseFuel TD 5) (0 + 1) ( '3' ) (by decide) [ '2' ]
    (.const 3) (.const 2) []]
  rw [del_pow_consts TD 2 3 (by norm_num) (by norm_num), h23]
  rw [pLoopN_digit_step TD (parseFuel TD 5) 0 ( '2' ) (by decide) (by decide) []
    (by decide) (some '^') [.const 8] [ '^' ]]
  rw [stoldM_two]
  rw [pLoopN_end_hat]
  rw [del_pow_consts TD 8 2 (by norm_num) (by norm_num), h82]

/-- C3 (confirmed).  The parser's `priority` gives `'^'` a strictly higher
priority than `'*'`/`'/'`, which are equal and strictly higher than
`'+'`/`'-'`; the pop-while-greater-or-equal loop therefore combines an
earlier `'^'` before pushing a later one, making `'^'` left-associative:
for all single-letter operands `a`, `b`, `c`, `parse("a^b^c")` yields the
tree `((a^b)^c)`, and with the `long double` facts `pow(2,3) = 8` and
`pow(8,2) = 64`, `parse("2^3^2")` folds to the constant `64` (not `512`),
which evaluates to `64` under the empty binding. -/
theorem claim_C3_precedence_and_power_assoc :
    (priority '^' > priority '*' ∧ priority '*' = priority '/' ∧
      priority '/' > priority '+' ∧ priority '+' = priority '-') ∧
    (∀ a b c : Char, a.isLower = true → b.isLower = true → c.isLower = true →
      ∀ TD : Transcendentals,
        make_expression TD (String.mk [a, '^', b, '^', c]) =
          .ok (.binop .pow
            (.binop .pow (.var (String.mk [a])) (.var (String.mk [b])))
            (.var (String.mk [c])))) ∧
    (∀ TD : Transcendentals, TD.powF 2 3 = 8 → TD.powF 8 2 = 64 →
      make_expression TD ("2^3^2") = .ok (.const 64) ∧
      evalD TD (.const 64) (fun _ => none) = .ok 64 ∧ ((64 : ℚ) ≠ 512)) := by
  refine ⟨⟨by decide, by decide, by decide, by decide⟩, c3_generic, ?_⟩
  intro TD h23 h82
  exact ⟨c3_concrete TD h23 h82, rfl, by norm_num⟩

/-- C3 witness: the left-associativity clause applied at the letters
`x`, `y`, `z`, and the constant-folding clause applied at `cppTD`, whose
`powF` satisfies the two `std::pow` facts. -/
theorem claim_C3_witness :
    make_expression cppTD (String.mk [ 'x', '^', 'y', '^', 'z' ]) =
      .ok (.binop .pow (.binop .pow (.var "x") (.var "y")) (.var "z")) ∧
    make_expression cppTD ("2^3^2") = .ok (.const 64) := by
  have h23 : cppTD.powF 2 3 = 8 := by with_unfolding_all rfl
  have h82 : cppTD.powF 8 2 = 64 := by with_unfolding_all rfl
  exact ⟨claim_C3_precedence_and_power_assoc.2.1 ( 'x' ) ( 'y' ) ( 'z' )
      (by decide) (by decide) (by decide) cppTD,
    (claim_C3_precedence_and_power_assoc.2.2 cppTD h23 h82).1⟩

theorem natFromChars_snoc (xs : List Char) (c : Char) :
    natFromChars (xs ++ [c]) = 10 * natFromChars xs + (c.toNat - 48) := by
  simp [natFromChars, List.foldl_append]

theorem char_ofNat_digit_toNat (d : ℕ) (hd : d < 10) :
    (Char.ofNat (48 + d)).toNat = 48 + d := by
  have hv : (48 + d).isValidChar := Or.inl (by omega)
  rw [Char.ofNat, dif_pos hv, Char.ofNatAux]
  simp [Char.toNat, UInt32.toNat, BitVec.toNat_ofNatLt]

theorem char_ofNat_digit_isDigit (d : ℕ) (hd : d < 10) :
    (Char.ofNat (48 + d)).isDigit = true := by
  have ht := char_ofNat_digit_toNat d hd
  simp [Char.isDigit]
  rw [u32_le_iff, u32_le_iff]
  rw [Char.toNat] at ht
  simp [UInt32.size, ht]
  omega

theorem digitsGo_spec (fuel : ℕ) : ∀ n, n ≤ fuel →
    (∀ c ∈ digitsGo fuel n, c.isDigit = true) ∧
    natFromChars (digitsGo fuel n) = n := by
  induction fuel with
  | zero =>
      intro n hn
      interval_cases n
      simp [digitsGo, natFromChars]
  | succ f ih =>
      intro n hn
      match n with
      | 0 => simp [digitsGo, natFromChars]
      | m + 1 =>
          have hdiv : (m + 1) / 10 ≤ f := by omega
          obtain ⟨hdig, hval⟩ := ih ((m + 1) / 10) hdiv
          rw [digitsGo]
          constructor
          · intro c hc
            rcases List.mem_append.mp hc with h1 | h2
            · exact hdig c h1
            · rw [List.mem_singleton] at h2
              subst h2
              exact char_ofNat_digit_isDigit ((m + 1) % 10) (by omega)
          · rw [natFromChars_snoc, hval, char_ofNat_digit_toNat ((m + 1) % 10) (by omega)]
            omega

theorem digitsGo_length (fuel : ℕ) : ∀ n k, n ≤ fuel → n < 10 ^ k →
    (digitsGo fuel n).length ≤ k := by
  induction fuel with
  | zero =>
      intro n k hn _
      interval_cases n
      simp [digitsGo]
  | succ f ih =>
      intro n k hn hk
      match n with
      | 0 => simp [digitsGo]
      | m + 1 =>
          match k with
          | 0 => omega
          | j + 1 =>
              rw [digitsGo]
              rw [List.length_append]
              have hdiv : (m + 1) / 10 ≤ f := by omega
              have hlt : (m + 1) / 10 < 10 ^ j := by
                rw [Nat.div_lt_iff_lt_mul (by norm_num)]
                calc m + 1 < 10 ^ (j + 1) := hk
                _ = 10 ^ j * 10 := by ring
              have := ih ((m + 1) / 10) j hdiv hlt
              simp
              omega

theorem digitsBE_spec (n : ℕ) :
    (∀ c ∈ digitsBE n, c.isDigit = true) ∧ natFromChars (digitsBE n) = n :=
  digitsGo_spec n n le_rfl

theorem digitsBE_length (n k : ℕ) (h : n < 10 ^ k) : (digitsBE n).length ≤ k :=
  digitsGo_length n n k le_rfl h

theorem natFromChars_replicate_zero (k : ℕ) (cs : List Char) :
    natFromChars (List.replicate k ( '0' ) ++ cs) = natFromChars cs := by
  induction k with
  | zero => rfl
  | succ j ih =>
      rw [List.replicate_succ, List.cons_append]
      rw [natFromChars] at ih ⊢
      simpa using ih

theorem pad6_spec (cs : List Char) (h : cs.length ≤ 6)
    (hd : ∀ c ∈ cs, c.isDigit = true) :
    (pad6 cs).length = 6 ∧ natFromChars (pad6 cs) = natFromChars cs ∧
    ∀ c ∈ pad6 cs, c.isDigit = true := by
  refine ⟨?_, natFromChars_replicate_zero _ cs, ?_⟩
  · rw [pad6, List.length_append, List.length_replicate]
    omega
  · intro c hc
    rcases List.mem_append.mp hc with h1 | h2
    · rw [List.eq_of_mem_replicate h1]
      decide
    · exact hd c h2

theorem intChars_spec (n : ℕ) :
    (∀ c ∈ intChars n, c.isDigit = true) ∧ natFromChars (intChars n) = n ∧
    intChars n ≠ [] := by
  rw [intChars]
  by_cases h : n = 0
  · subst h
    refine ⟨?_, ?_, ?_⟩ <;> simp [natFromChars]
  · rw [if_neg h]
    obtain ⟨h1, h2⟩ := digitsBE_spec n
    refine ⟨h1, h2, ?_⟩
    intro hc
    rw [hc] at h2
    exact h (by simpa [natFromChars] using h2.symm)

theorem takeWhile_all {p : Char → Bool} (xs : List Char)
    (h : ∀ c ∈ xs, p c = true) : xs.takeWhile p = xs := by
  induction xs with
  | nil => rfl
  | cons x xs ih =>
      rw [List.takeWhile_cons, if_pos (h x (List.mem_cons_self x xs))]
      rw [ih (fun c hc => h c (List.mem_cons_of_mem x hc))]

theorem takeWhile_append_not {p : Char → Bool} (xs ys : List Char)
    (hxs : ∀ c ∈ xs, p c = true)
    (hys : ys = [] ∨ ∃ y yt, ys = y :: yt ∧ p y = false) :
    (xs ++ ys).takeWhile p = xs := by
  induction xs with
  | nil =>
      rcases hys with h | ⟨y, yt, hy, hp⟩
      · simp [h]
      · rw [hy, List.nil_append, List.takeWhile_cons, if_neg (by simp [hp])]
  | cons x xs ih =>
      rw [List.cons_append, List.takeWhile_cons,
        if_pos (hxs x (List.mem_cons_self x xs))]
      rw [ih (fun c hc => hxs c (List.mem_cons_of_mem x hc))]

theorem dropWhile_append_not {p : Char → Bool} (xs ys : List Char)
    (hxs : ∀ c ∈ xs, p c = true)
    (hys : ys = [] ∨ ∃ y yt, ys = y :: yt ∧ p y = false) :
    (xs ++ ys).dropWhile p = ys := by
  induction xs with
  | nil =>
      rcases hys with h | ⟨y, yt, hy, hp⟩
      · simp [h]
      · rw [hy, List.nil_append, List.dropWhile_cons, if_neg (by simp [hp])]
  | cons x xs ih =>
      rw [List.cons_append, List.dropWhile_cons,
        if_pos (hxs x (List.mem_cons_self x xs))]
      exact ih (fun c hc => hxs c (List.mem_cons_of_mem x hc))

theorem stoldM_round (ip fp : ℕ) (hfp : fp < 10 ^ 6) :
    stoldM (intChars ip ++ '.' :: pad6 (digitsBE fp))
      = (ip : ℚ) + (fp : ℚ) / 10 ^ 6 := by
  obtain ⟨hd1, hv1, _⟩ := intChars_spec ip
  have hlen : (digitsBE fp).length ≤ 6 := digitsBE_length fp 6 hfp
  obtain ⟨hplen, hpval, hpdig⟩ := pad6_spec _ hlen (digitsBE_spec fp).1
  have hdot : (∃ y yt, ('.' :: pad6 (digitsBE fp) : List Char) = y :: yt ∧
      Char.isDigit y = false) := ⟨ '.', _, rfl, by decide⟩
  rw [stoldM]
  rw [takeWhile_append_not _ _ hd1 (Or.inr hdot),
    dropWhile_append_not _ _ hd1 (Or.inr hdot)]
  simp only []
  rw [takeWhile_all _ hpdig, hv1, hpval, (digitsBE_spec fp).2, hplen]

theorem cpp_m_eq (q : ℚ) (n : ℕ) (hq : q = (n : ℚ) / 1000000) :
    (2 * q.num.natAbs * 1000000 + q.den) / (2 * q.den) = n := by
  have hq0 : 0 ≤ q := by
    rw [hq]
    positivity
  have hnum0 : 0 ≤ q.num := Rat.num_nonneg.mpr hq0
  have hden : (q.den : ℚ) ≠ 0 := by
    exact_mod_cast q.den_nz
  have hcast : ((q.num.natAbs : ℚ)) = ((q.num : ℤ) : ℚ) := by
    rw [Int.cast_natAbs]
    exact_mod_cast congrArg (fun z : ℤ => (z : ℚ)) (abs_of_nonneg hnum0)
  have hnd := Rat.num_div_den q
  rw [div_eq_iff hden] at hnd
  have key : ((q.num.natAbs : ℚ)) * 1000000 = (n : ℚ) * (q.den : ℚ) := by
    rw [hcast, hnd, hq]
    field_simp
  have keyN : q.num.natAbs * 1000000 = n * q.den := by
    exact_mod_cast key
  have hshape : 2 * q.num.natAbs * 1000000 + q.den = 2 * q.den * n + q.den := by
    have h2 : 2 * q.num.natAbs * 1000000 = 2 * (q.num.natAbs * 1000000) := by ring
    rw [h2, keyN]
    ring
  rw [hshape, Nat.mul_add_div (by have := q.pos; omega)]
  rw [Nat.div_eq_of_lt (by have := q.pos; omega)]
  omega

theorem cppChars_shape (q : ℚ) (n : ℕ) (hq : q = (n : ℚ) / 1000000) :
    (cppToString q).data =
      intChars (n / 1000000) ++ '.' :: pad6 (digitsBE (n % 1000000)) := by
  have h0 : ¬ (q.num < 0) := by
    have : 0 ≤ q.num := Rat.num_nonneg.mpr (by rw [hq]; positivity)
    omega
  simp only [cppToString, cpp_m_eq q n hq, if_neg h0, List.nil_append]

theorem stold_cpp (q : ℚ) (h : constOK q) : stoldM ((cppToString q).data) = q := by
  obtain ⟨n, hq⟩ := h
  rw [cppChars_shape q n hq]
  have hb : n % 1000000 < 10 ^ 6 := by
    have h1 : n % 1000000 < 1000000 := Nat.mod_lt _ (by norm_num)
    simpa using h1
  rw [stoldM_round (n / 1000000) (n % 1000000) hb]
  rw [hq]
  have hdm : ((n / 1000000 : ℕ) : ℚ) * 1000000 + ((n % 1000000 : ℕ) : ℚ)
      = (n : ℚ) := by
    exact_mod_cast (show n / 1000000 * 1000000 + n % 1000000 = n by omega)
  field_simp
  linarith [hdm]

theorem digit_val (c : Char) (h : c.isDigit = true) :
    48 ≤ c.val.toNat ∧ c.val.toNat ≤ 57 := by
  simp [Char.isDigit] at h
  obtain ⟨h1, h2⟩ := h
  rw [u32_le_iff] at h1 h2
  constructor
  · simpa [UInt32.size] using h1
  · simpa [UInt32.size] using h2

theorem alpha_val (c : Char) (h : c.isAlpha = true) :
    (65 ≤ c.val.toNat ∧ c.val.toNat ≤ 90) ∨
    (97 ≤ c.val.toNat ∧ c.val.toNat ≤ 122) := by
  rw [Char.isAlpha] at h
  rcases Bool.or_eq_true_iff.mp h with hu | hl
  · left
    simp [Char.isUpper] at hu
    obtain ⟨h1, h2⟩ := hu
    rw [u32_le_iff] at h1 h2
    constructor
    · simpa [UInt32.size] using h1
    · simpa [UInt32.size] using h2
  · exact Or.inr (lower_val c hl)

theorem digit_char_facts (c : Char) (h : c.isDigit = true) :
    ¬(c = ' ') ∧ c.isAlpha = false ∧ is_operator c = false ∧
    ¬(c = '(') ∧ ¬(c = ')') := by
  have hn := digit_val c h
  refine ⟨?_, ?_, ?_, ?_, ?_⟩
  · intro hc; subst hc; exact absurd hn.1 (by decide)
  · rw [Bool.eq_false_iff]
    intro hA
    rcases alpha_val c hA with ⟨h1, h2⟩ | ⟨h1, h2⟩ <;> omega
  · have hne : c ≠ '+' ∧ c ≠ '-' ∧ c ≠ '*' ∧ c ≠ '/' ∧ c ≠ '^' := by
      refine ⟨?_, ?_, ?_, ?_, ?_⟩ <;> intro hc <;> subst hc <;>
        first
        | exact absurd hn.1 (by decide)
        | exact absurd hn.2 (by decide)
    simp [is_operator, hne.1, hne.2.1, hne.2.2.1, hne.2.2.2.1, hne.2.2.2.2]
  · intro hc; subst hc; exact absurd hn.1 (by decide)
  · intro hc; subst hc; exact absurd hn.1 (by decide)

theorem numChar_facts (c : Char) (h : numChar c = true) :
    ¬(c = ' ') ∧ c.isAlpha = false ∧ is_operator c = false ∧
    ¬(c = '(') ∧ ¬(c = ')') := by
  rw [numChar] at h
  rcases Bool.or_eq_true_iff.mp h with hd | hdot
  · exact digit_char_facts c hd
  · have : c = '.' := by simpa using hdot
    subst this
    refine ⟨by decide, by decide, by decide, by decide, by decide⟩

theorem cppChars_all_numChar (q : ℚ) (h : constOK q) :
    ∀ c ∈ (cppToString q).data, numChar c = true := by
  obtain ⟨n, hq⟩ := h
  rw [cppChars_shape q n hq]
  intro c hc
  rcases List.mem_append.mp hc with h1 | h2
  · rw [numChar, (intChars_spec (n / 1000000)).1 c h1]
    simp
  · rcases List.mem_cons.mp h2 with h3 | h4
    · subst h3
      decide
    · have hlen : (digitsBE (n % 1000000)).length ≤ 6 :=
        digitsBE_length _ 6 (Nat.mod_lt _ (by norm_num))
      obtain ⟨_, _, hdig⟩ := pad6_spec _ hlen (digitsBE_spec (n % 1000000)).1
      rw [numChar, hdig c h4]
      simp

theorem cppChars_head (q : ℚ) (h : constOK q) :
    ∃ d ds, (cppToString q).data = d :: ds ∧ d.isDigit = true := by
  obtain ⟨n, hq⟩ := h
  rw [cppChars_shape q n hq]
  obtain ⟨hd, _, hne⟩ := intChars_spec (n / 1000000)
  rcases hic : intChars (n / 1000000) with _ | ⟨d, ds⟩
  · exact absurd hic hne
  · refine ⟨d, ds ++ '.' :: pad6 (digitsBE (n % 1000000)), by simp, ?_⟩
    exact hd d (by rw [hic]; exact List.mem_cons_self d ds)

theorem serL_const (q : ℚ) : serL (.const q) = (cppToString q).data := rfl

theorem string_data_append (s t : String) : (s ++ t).data = s.data ++ t.data := rfl

theorem serL_binop (op : Op) (l r : Expr) :
    serL (.binop op l r) = '(' :: (serL l ++ ((opStr op).data ++ (serL r ++ [ ')' ]))) := by
  rw [serL, to_string]
  rw [string_data_append, string_data_append, string_data_append, string_data_append]
  rw [show ("(" : String).data = [ '(' ] from rfl,
    show (")" : String).data = [ ')' ] from rfl]
  simp [serL, List.append_assoc]

theorem serL_func (f : Fn) (a : Expr) :
    serL (.func f a) = (fnStr f).data ++ ( '(' :: (serL a ++ [ ')' ])) := by
  rw [serL, to_string]
  rw [string_data_append, string_data_append, string_data_append]
  rw [show ("(" : String).data = [ '(' ] from rfl,
    show (")" : String).data = [ ')' ] from rfl]
  simp [serL, List.append_assoc]

theorem opStr_data (op : Op) : ∃ c, (opStr op).data = [c] ∧ is_operator c = true ∧
    1 ≤ priority c := by
  cases op with
  | add => exact ⟨ '+', rfl, by decide, by decide⟩
  | sub => exact ⟨ '-', rfl, by decide, by decide⟩
  | mul => exact ⟨ '*', rfl, by decide, by decide⟩
  | div => exact ⟨ '/', rfl, by decide, by decide⟩
  | pow => exact ⟨ '^', rfl, by decide, by decide⟩

theorem endBal_append (b : ℕ) (xs ys : List Char) :
    endBal b (xs ++ ys) = endBal (endBal b xs) ys := by
  rw [endBal, endBal, endBal, List.foldl_append]

theorem prefOK_append (b : ℕ) (xs ys : List Char) :
    prefOK b (xs ++ ys) ↔ prefOK b xs ∧ prefOK (endBal b xs) ys := by
  induction xs generalizing b with
  | nil => simp [prefOK, endBal]
  | cons x xs ih =>
      rw [List.cons_append, prefOK, prefOK, ih (delta b x)]
      rw [show endBal b (x :: xs) = endBal (delta b x) xs from rfl]
      tauto

theorem prefOK_no_paren (b : ℕ) (xs : List Char) (hb : 0 < b)
    (h : ∀ c ∈ xs, ¬(c = '(') ∧ ¬(c = ')')) :
    prefOK b xs ∧ endBal b xs = b := by
  induction xs generalizing b with
  | nil => exact ⟨trivial, rfl⟩
  | cons x xs ih =>
      have hx := h x (List.mem_cons_self x xs)
      have hdel : delta b x = b := by
        rw [delta, if_neg hx.1, if_neg hx.2]
      have := ih b hb (fun c hc => h c (List.mem_cons_of_mem x hc))
      constructor
      · rw [prefOK, hdel]
        exact ⟨hb, this.1⟩
      · rw [show endBal b (x :: xs) = endBal (delta b x) xs from rfl, hdel]
        exact this.2

theorem scanArg_appendix (cs : List Char) : ∀ b rest, prefOK b cs →
    scanArg (cs ++ rest) b
      = (cs ++ (scanArg rest (endBal b cs)).1, (scanArg rest (endBal b cs)).2) := by
  induction cs with
  | nil => intro b rest _; simp [endBal]
  | cons c cs ih =>
      intro b rest hp
      rw [prefOK] at hp
      rw [List.cons_append, scanArg]
      have hne : ¬(((if c = '(' then b + 1 else if c = ')' then b - 1 else b) : ℕ) = 0) := by
        have := hp.1
        rw [delta] at this
        omega
  -- hmm need the inline bal' to coincide with delta b c
      rw [if_neg hne]
      rw [show (if c = '(' then b + 1 else if c = ')' then b - 1 else b) = delta b c from rfl]
      rw [ih (delta b c) rest hp.2]
      rw [show endBal b (c :: cs) = endBal (delta b c) cs from rfl]
      simp

theorem operator_char_facts (c : Char) (h : is_operator c = true) :
    ¬(c = ' ') ∧ c.isAlpha = false ∧ c.isDigit = false ∧
    ¬(c = '(') ∧ ¬(c = ')') ∧ ¬(c = '.') := by
  rw [is_operator] at h
  simp only [Bool.or_eq_true, decide_eq_true_eq] at h
  rcases h with ((((h | h) | h) | h) | h) <;> subst h <;>
    refine ⟨by decide, by decide, by decide, by decide, by decide, by decide⟩

theorem fnStr_char_facts (f : Fn) : ∀ c ∈ (fnStr f).data,
    c.isAlpha = true ∧ c.toLower = c ∧ ¬(c = ' ') ∧ ¬(c = '(') ∧ ¬(c = ')') := by
  cases f <;> decide

theorem ser_balanced (e : Expr) (hg : goodE e) : ∀ b, 0 < b →
    prefOK b (serL e) ∧ endBal b (serL e) = b := by
  induction e with
  | const q =>
      intro b hb
      refine prefOK_no_paren b _ hb ?_
      intro c hc
      have := numChar_facts c (cppChars_all_numChar q hg c hc)
      exact ⟨this.2.2.2.1, this.2.2.2.2⟩
  | var v => exact absurd hg (by simp [goodE])
  | binop op l r ihl ihr =>
      intro b hb
      rw [goodE] at hg
      obtain ⟨co, hco, hopo, _⟩ := opStr_data op
      have hofacts := operator_char_facts co hopo
      rw [serL_binop]
      have hop : ∀ c ∈ (opStr op).data, ¬(c = '(') ∧ ¬(c = ')') := by
        intro c hc
        rw [hco, List.mem_singleton] at hc
        subst hc
        exact ⟨hofacts.2.2.2.1, hofacts.2.2.2.2.1⟩
      have hd1 : delta b '(' = b + 1 := by rw [delta, if_pos rfl]
      have hl := ihl hg.1 (b + 1) (by omega)
      have ho := prefOK_no_paren (b + 1) (opStr op).data (by omega) hop
      have hr := ihr hg.2 (b + 1) (by omega)
      have hcl : delta (b + 1) ')' = b := by
        rw [delta, if_neg (by decide), if_pos rfl]
        omega
      constructor
      · rw [prefOK, hd1]
        refine ⟨by omega, ?_⟩
        rw [prefOK_append]
        refine ⟨hl.1, ?_⟩
        rw [hl.2, prefOK_append]
        refine ⟨ho.1, ?_⟩
        rw [ho.2, prefOK_append]
        refine ⟨hr.1, ?_⟩
        rw [hr.2]
        rw [prefOK, hcl]
        exact ⟨by omega, trivial⟩
      · rw [show endBal b ('(' :: (serL l ++ ((opStr op).data ++ (serL r ++ [ ')' ]))))
          = endBal (delta b '(') (serL l ++ ((opStr op).data ++ (serL r ++ [ ')' ]))) from rfl]
        rw [hd1, endBal_append, hl.2, endBal_append, ho.2, endBal_append, hr.2]
        rw [show endBal (b + 1) [ ')' ] = delta (b + 1) ')' from rfl, hcl]
  | func f a iha =>
      intro b hb
      rw [goodE] at hg
      have hfn : ∀ c ∈ (fnStr f).data, ¬(c = '(') ∧ ¬(c = ')') := by
        intro c hc
        have := fnStr_char_facts f c hc
        exact ⟨this.2.2.2.1, this.2.2.2.2⟩
      rw [serL_func]
      have hf := prefOK_no_paren b (fnStr f).data hb hfn
      have hd1 : delta b '(' = b + 1 := by rw [delta, if_pos rfl]
      have ha := iha hg (b + 1) (by omega)
      have hcl : delta (b + 1) ')' = b := by
        rw [delta, if_neg (by decide), if_pos rfl]
        omega
      constructor
      · rw [prefOK_append]
        refine ⟨hf.1, ?_⟩
        rw [hf.2, prefOK, hd1]
        refine ⟨by omega, ?_⟩
        rw [prefOK_append]
        refine ⟨ha.1, ?_⟩
        rw [ha.2, prefOK, hcl]
        exact ⟨by omega, trivial⟩
      · rw [endBal_append, hf.2]
        rw [show endBal b ('(' :: (serL a ++ [ ')' ]))
          = endBal (delta b '(') (serL a ++ [ ')' ]) from rfl]
        rw [hd1, endBal_append, ha.2]
        rw [show endBal (b + 1) [ ')' ] = delta (b + 1) ')' from rfl, hcl]

theorem ser_chars_ok (e : Expr) (hg : goodE e) : ∀ c ∈ serL e,
    ¬(c = ' ') ∧ (c.isAlpha = true → c.toLower = c) := by
  induction e with
  | const q =>
      intro c hc
      have := numChar_facts c (cppChars_all_numChar q hg c hc)
      exact ⟨this.1, fun hA => absurd hA (by simp [this.2.1])⟩
  | var v => exact absurd hg (by simp [goodE])
  | binop op l r ihl ihr =>
      rw [goodE] at hg
      intro c hc
      rw [serL_binop] at hc
      rcases List.mem_cons.mp hc with h1 | h2
      · subst h1
        exact ⟨by decide, fun hA => absurd hA (by decide)⟩
      rcases List.mem_append.mp h2 with h3 | h4
      · exact ihl hg.1 c h3
      rcases List.mem_append.mp h4 with h5 | h6
      · obtain ⟨co, hco, hopo, _⟩ := opStr_data op
        rw [hco, List.mem_singleton] at h5
        rw [← h5] at hopo
        have := operator_char_facts c hopo
        exact ⟨this.1, fun hA => absurd hA (by simp [this.2.1])⟩
      rcases List.mem_append.mp h6 with h7 | h8
      · exact ihr hg.2 c h7
      · rw [List.mem_singleton] at h8
        subst h8
        exact ⟨by decide, fun hA => absurd hA (by decide)⟩
  | func f a iha =>
      rw [goodE] at hg
      intro c hc
      rw [serL_func] at hc
      rcases List.mem_append.mp hc with h1 | h2
      · have := fnStr_char_facts f c h1
        exact ⟨this.2.2.1, fun _ => this.2.1⟩
      rcases List.mem_cons.mp h2 with h3 | h4
      · subst h3
        exact ⟨by decide, fun hA => absurd hA (by decide)⟩
      rcases List.mem_append.mp h4 with h5 | h6
      · exact iha hg c h5
      · rw [List.mem_singleton] at h6
        subst h6
        exact ⟨by decide, fun hA => absurd hA (by decide)⟩

theorem preprocess_mk (cs : List Char)
    (h : ∀ c ∈ cs, ¬(c = ' ') ∧ (c.isAlpha = true → c.toLower = c)) :
    preprocess (String.mk cs) = cs := by
  rw [preprocess]
  rw [show (String.mk cs).toList = cs from rfl]
  rw [List.filter_eq_self.mpr (by
    intro c hc
    simpa using (h c hc).1)]
  have : ∀ c ∈ cs, (if c.isAlpha then c.toLower else c) = c := by
    intro c hc
    by_cases hA : c.isAlpha = true
    · rw [if_pos hA]
      exact (h c hc).2 hA
    · rw [if_neg hA]
  calc cs.map (fun c => if c.isAlpha = true then c.toLower else c)
      = cs.map id := List.map_congr_left this
    _ = cs := List.map_id cs

theorem restOK_not_numChar (rest : List Char) (h : restOK rest) :
    rest = [] ∨ ∃ y yt, rest = y :: yt ∧ numChar y = false := by
  rcases h with h | ⟨y, yt, hy, hcase⟩
  · exact Or.inl h
  · refine Or.inr ⟨y, yt, hy, ?_⟩
    rcases hcase with h1 | h2
    · subst h1; decide
    · have := operator_char_facts y h2
      rw [numChar]
      simp [this.2.2.1, this.2.2.2.2.2]

theorem getLastD_not_op (x : Char) (xs : List Char) (hx : x.isDigit = true)
    (hxs : ∀ c ∈ xs, numChar c = true) :
    is_operator (xs.getLastD x) = false := by
  have hmem : xs.getLastD x ∈ x :: xs := List.getLastD_mem_cons xs x
  rcases List.mem_cons.mp hmem with h1 | h2
  · rw [h1]
    exact (digit_char_facts x hx).2.2.1
  · exact (numChar_facts _ (hxs _ h2)).2.2.1

theorem pLoopN_num_step (TD : Transcendentals) (recur : String → Except PErr Expr)
    (n : ℕ) (x : Char) (hx : x.isDigit = true)
    (xs : List Char) (hxs : ∀ c ∈ xs, numChar c = true)
    (rest : List Char) (hrest : restOK rest)
    (prev : Option Char) (vals : List Expr) (ops : List Char) :
    pLoopN TD recur (n + 1) (x :: (xs ++ rest)) prev vals ops
      = pLoopN TD recur n rest (some (xs.getLastD x))
          (.const (stoldM (x :: xs)) :: vals) ops := by
  have hfx := digit_char_facts x hx
  have htw : (xs ++ rest).takeWhile numChar = xs :=
    takeWhile_append_not _ _ hxs (restOK_not_numChar rest hrest)
  have hdw : (xs ++ rest).dropWhile numChar = rest :=
    dropWhile_append_not _ _ hxs (restOK_not_numChar rest hrest)
  simp only [pLoopN]
  rw [if_neg hfx.1, if_pos (by simp [hx])]
  rw [htw, hdw]

theorem pLoopN_op_step (TD : Transcendentals) (recur : String → Except PErr Expr)
    (n : ℕ) (oc : Char) (hoc : is_operator oc = true) (hpr : 1 ≤ priority oc)
    (pc : Char) (hpc : is_operator pc = false)
    (cs : List Char) (vals : List Expr) (ops : List Char) :
    pLoopN TD recur (n + 1) (oc :: cs) (some pc) vals ('(' :: ops)
      = pLoopN TD recur n cs (some oc) vals (oc :: '(' :: ops) := by
  have hf := operator_char_facts oc hoc
  simp only [pLoopN]
  rw [if_neg hf.1, if_neg (by simp [hf.2.2.1]), if_neg (by simp [hf.2.1]),
    if_pos (by simp [hoc])]
  simp only [Option.elim]
  rw [if_neg (by simp [hpc])]
  have hne : ¬(priority '(' ≥ priority oc) := by
    have h1 : priority '(' = -1 := by decide
    omega
  rw [show popGE TD (priority oc) ('(' :: ops) vals
      = .ok (vals, '(' :: ops) from by rw [popGE, if_neg hne]]

theorem pLoopN_lparen_step (TD : Transcendentals) (recur : String → Except PErr Expr)
    (n : ℕ) (cs : List Char) (prev : Option Char) (vals : List Expr)
    (ops : List Char) :
    pLoopN TD recur (n + 1) ('(' :: cs) prev vals ops
      = pLoopN TD recur n cs (some '(') vals ('(' :: ops) := by
  simp only [pLoopN]
  rw [if_neg (by decide), if_neg (by decide), if_neg (by decide),
    if_neg (by decide), if_pos trivial]

theorem pLoopN_rparen_step (TD : Transcendentals) (recur : String → Except PErr Expr)
    (n : ℕ) (oc : Char) (hoc : is_operator oc = true)
    (cs : List Char) (prev : Option Char) (vals newvals : List Expr)
    (hcomb : combineStep TD oc vals = .ok newvals) (ops : List Char) :
    pLoopN TD recur (n + 1) (')' :: cs) prev vals (oc :: '(' :: ops)
      = pLoopN TD recur n cs (some ')') newvals ops := by
  have hf := operator_char_facts oc hoc
  simp only [pLoopN]
  rw [if_neg (by decide), if_neg (by decide), if_neg (by decide),
    if_neg (by decide), if_neg (by decide), if_pos trivial]
  have hpop : popUntilParen TD (oc :: '(' :: ops) vals = .ok (newvals, ops) := by
    rw [popUntilParen.eq_def]
    split
    next heq => simp at heq
    next os heq =>
      rw [List.cons.injEq] at heq
      exact absurd heq.1 hf.2.2.2.1
    next o os heq =>
      rw [List.cons.injEq] at heq
      obtain ⟨h1, h2⟩ := heq
      subst h1
      subst h2
      rw [hcomb]
      simp [popUntilParen]
  rw [hpop]

theorem goodE_noVar (e : Expr) (h : goodE e) : varsOf e = [] := by
  induction e with
  | const q => rfl
  | var v => exact absurd h (by simp [goodE])
  | binop op l r ihl ihr =>
      rw [goodE] at h
      rw [varsOf, ihl h.1, ihr h.2]
      rfl
  | func f a iha =>
      rw [goodE] at h
      rw [varsOf, iha h]

theorem evalD_ok_of_noVar (TD : Transcendentals) (e : Expr) (b : Bindings)
    (h : varsOf e = []) : ∃ v, evalD TD e b = .ok v := by
  rcases hres : evalD TD e b with err | v
  · exfalso
    obtain ⟨w, hw, _⟩ := (evalD_error_iff TD e b).mp ⟨err, hres⟩
    rw [h] at hw
    simp at hw
  · exact ⟨v, rfl⟩

theorem const_ok_inv (TD : Transcendentals) (q : ℚ) (b : Bindings) (a : ℚ)
    (h : evalD TD (.const q) b = .ok a) : a = q := by
  rw [evalD] at h
  exact (Except.ok.inj h).symm

theorem evalD_binop_ok (TD : Transcendentals) (op : Op) (l r : Expr)
    (b : Bindings) (a bv : ℚ)
    (hl : evalD TD l b = .ok a) (hr : evalD TD r b = .ok bv) :
    evalD TD (.binop op l r) b =
      .ok (match op with
        | .add => a + bv
        | .sub => a - bv
        | .mul => a * bv
        | .div => a / bv
        | .pow => TD.powF a bv) := by
  rw [evalD, hl, hr]
  cases op <;> rfl

theorem del_mult_eval (TD : Transcendentals) (l r : Expr) (b : Bindings) (a bv : ℚ)
    (hl : evalD TD l b = .ok a) (hr : evalD TD r b = .ok bv) :
    evalD TD (del_mult .mul l r) b = .ok (a * bv) := by
  rw [del_mult]
  by_cases hzl : is_zero l = true
  · have h0 := (is_zero_iff l).mp hzl
    rw [h0] at hl
    have ha := const_ok_inv TD 0 b a hl
    rw [if_pos (by simp [hzl])]
    rw [evalD, ha]
    simp
  · by_cases hzr : is_zero r = true
    · have h0 := (is_zero_iff r).mp hzr
      rw [h0] at hr
      have hb := const_ok_inv TD 0 b bv hr
      rw [if_pos (by simp [hzr])]
      rw [evalD, hb]
      simp
    · rw [if_neg (by simp [hzl, hzr])]
      by_cases hol : is_one l = true
      · have h1 := (is_one_iff l).mp hol
        rw [h1] at hl
        have ha := const_ok_inv TD 1 b a hl
        rw [if_pos hol, hr, ha]
        simp
      · rw [if_neg hol]
        by_cases hor : is_one r = true
        · have h1 := (is_one_iff r).mp hor
          rw [h1] at hr
          have hb := const_ok_inv TD 1 b bv hr
          rw [if_pos hor, hl, hb]
          simp
        · rw [if_neg hor]
          rcases hcl : constVal? l with _ | ql
          · rw [evalD_binop_ok TD .mul l r b a bv hl hr]
          · rcases hcr : constVal? r with _ | qr
            · rw [evalD_binop_ok TD .mul l r b a bv hl hr]
            · have hleq : l = .const ql := by
                cases l <;> simp [constVal?] at hcl <;> simp [hcl]
              have hreq : r = .const qr := by
                cases r <;> simp [constVal?] at hcr <;> simp [hcr]
              rw [hleq] at hl
              rw [hreq] at hr
              rw [const_ok_inv TD ql b a hl, const_ok_inv TD qr b bv hr]
              rw [evalD]

theorem del_zero_add_eval (TD : Transcendentals) (l r : Expr) (b : Bindings)
    (a bv : ℚ) (hl : evalD TD l b = .ok a) (hr : evalD TD r b = .ok bv) :
    evalD TD (del_zero .add l r) b = .ok (a + bv) := by
  rw [del_zero]
  by_cases hzl : is_zero l = true
  · have h0 := (is_zero_iff l).mp hzl
    rw [h0] at hl
    have ha := const_ok_inv TD 0 b a hl
    rw [if_pos hzl]
    rw [show ((if (Op.add = Op.sub) then (-1 : ℚ) else 1)) = 1 from by simp]
    rw [del_mult_eval TD (.const 1) r b 1 bv rfl hr, ha]
    simp
  · rw [if_neg hzl]
    by_cases hzr : is_zero r = true
    · have h0 := (is_zero_iff r).mp hzr
      rw [h0] at hr
      have hb := const_ok_inv TD 0 b bv hr
      rw [if_pos hzr, hl, hb]
      simp
    · rw [if_neg hzr]
      rcases hcl : constVal? l with _ | ql
      · rw [evalD_binop_ok TD .add l r b a bv hl hr]
      · rcases hcr : constVal? r with _ | qr
        · rw [evalD_binop_ok TD .add l r b a bv hl hr]
        · have hleq : l = .const ql := by
            cases l <;> simp [constVal?] at hcl <;> simp [hcl]
          have hreq : r = .const qr := by
            cases r <;> simp [constVal?] at hcr <;> simp [hcr]
          rw [hleq] at hl
          rw [hreq] at hr
          rw [const_ok_inv TD ql b a hl, const_ok_inv TD qr b bv hr]
          rw [evalD]
          simp

theorem del_zero_sub_eval (TD : Transcendentals) (l r : Expr) (b : Bindings)
    (a bv : ℚ) (hl : evalD TD l b = .ok a) (hr : evalD TD r b = .ok bv) :
    evalD TD (del_zero .sub l r) b = .ok (a - bv) := by
  rw [del_zero]
  by_cases hzl : is_zero l = true
  · have h0 := (is_zero_iff l).mp hzl
    rw [h0] at hl
    have ha := const_ok_inv TD 0 b a hl
    rw [if_pos hzl]
    rw [show ((if (Op.sub = Op.sub) then (-1 : ℚ) else 1)) = -1 from by simp]
    rw [del_mult_eval TD (.const (-1)) r b (-1) bv rfl hr, ha]
    norm_num
  · rw [if_neg hzl]
    by_cases hzr : is_zero r = true
    · have h0 := (is_zero_iff r).mp hzr
      rw [h0] at hr
      have hb := const_ok_inv TD 0 b bv hr
      rw [if_pos hzr, hl, hb]
      simp
    · rw [if_neg hzr]
      rcases hcl : constVal? l with _ | ql
      · rw [evalD_binop_ok TD .sub l r b a bv hl hr]
      · rcases hcr : constVal? r with _ | qr
        · rw [evalD_binop_ok TD .sub l r b a bv hl hr]
        · have hleq : l = .const ql := by
            cases l <;> simp [constVal?] at hcl <;> simp [hcl]
          have hreq : r = .const qr := by
            cases r <;> simp [constVal?] at hcr <;> simp [hcr]
          rw [hleq] at hl
          rw [hreq] at hr
          rw [const_ok_inv TD ql b a hl, const_ok_inv TD qr b bv hr]
          rw [evalD]
          simp
          ring

theorem del_div_eval (TD : Transcendentals) (l r : Expr) (b : Bindings)
    (a bv : ℚ) (hl : evalD TD l b = .ok a) (hr : evalD TD r b = .ok bv) :
    evalD TD (del_div .div l r) b = .ok (a / bv) := by
  rw [del_div]
  by_cases hor : is_one r = true
  · have h1 := (is_one_iff r).mp hor
    rw [h1] at hr
    have hb := const_ok_inv TD 1 b bv hr
    rw [if_pos hor, hl, hb]
    simp
  · rw [if_neg hor]
    by_cases hzl : is_zero l = true
    · have h0 := (is_zero_iff l).mp hzl
      rw [h0] at hl
      have ha := const_ok_inv TD 0 b a hl
      rw [if_pos hzl, evalD, ha]
      simp
    · rw [if_neg hzl]
      rcases hcl : constVal? l with _ | ql
      · rw [evalD_binop_ok TD .div l r b a bv hl hr]
      · rcases hcr : constVal? r with _ | qr
        · rw [evalD_binop_ok TD .div l r b a bv hl hr]
        · have hleq : l = .const ql := by
            cases l <;> simp [constVal?] at hcl <;> simp [hcl]
          have hreq : r = .const qr := by
            cases r <;> simp [constVal?] at hcr <;> simp [hcr]
          rw [hleq] at hl
          rw [hreq] at hr
          rw [const_ok_inv TD ql b a hl, const_ok_inv TD qr b bv hr]
          rw [evalD]

theorem del_pow_eval (TD : Transcendentals)
    (hp1 : ∀ x : ℚ, TD.powF x 1 = x) (hp0 : ∀ x : ℚ, TD.powF x 0 = 1)
    (l r : Expr) (b : Bindings)
    (a bv : ℚ) (hl : evalD TD l b = .ok a) (hr : evalD TD r b = .ok bv) :
    evalD TD (del_pow TD .pow l r) b = .ok (TD.powF a bv) := by
  rw [del_pow]
  by_cases hor : is_one r = true
  · have h1 := (is_one_iff r).mp hor
    rw [h1] at hr
    have hb := const_ok_inv TD 1 b bv hr
    rw [if_pos hor, hl, hb, hp1]
  · rw [if_neg hor]
    by_cases hzr : is_zero r = true
    · have h0 := (is_zero_iff r).mp hzr
      rw [h0] at hr
      have hb := const_ok_inv TD 0 b bv hr
      rw [if_pos hzr, evalD, hb, hp0]
    · rw [if_neg hzr]
      rcases hcl : constVal? l with _ | ql
      · rw [evalD_binop_ok TD .pow l r b a bv hl hr]
      · rcases hcr : constVal? r with _ | qr
        · rw [evalD_binop_ok TD .pow l r b a bv hl hr]
        · have hleq : l = .const ql := by
            cases l <;> simp [constVal?] at hcl <;> simp [hcl]
          have hreq : r = .const qr := by
            cases r <;> simp [constVal?] at hcr <;> simp [hcr]
          rw [hleq] at hl
          rw [hreq] at hr
          rw [const_ok_inv TD ql b a hl, const_ok_inv TD qr b bv hr]
          rw [evalD]

theorem reparse_eval (TD : Transcendentals)
    (hp1 : ∀ x : ℚ, TD.powF x 1 = x) (hp0 : ∀ x : ℚ, TD.powF x 0 = 1)
    (e : Expr) (hg : goodE e) (b : Bindings) :
    evalD TD (reparseE TD e) b = evalD TD e b := by
  induction e with
  | const q => rfl
  | var v => exact absurd hg (by simp [goodE])
  | binop op l r ihl ihr =>
      rw [goodE] at hg
      obtain ⟨a, hl⟩ := evalD_ok_of_noVar TD l b (goodE_noVar l hg.1)
      obtain ⟨bv, hr⟩ := evalD_ok_of_noVar TD r b (goodE_noVar r hg.2)
      have hl' : evalD TD (reparseE TD l) b = .ok a := by rw [ihl hg.1, hl]
      have hr' : evalD TD (reparseE TD r) b = .ok bv := by rw [ihr hg.2, hr]
      cases op with
      | add =>
          rw [reparseE, del_zero_add_eval TD _ _ b a bv hl' hr',
            evalD_binop_ok TD .add l r b a bv hl hr]
      | sub =>
          rw [reparseE, del_zero_sub_eval TD _ _ b a bv hl' hr',
            evalD_binop_ok TD .sub l r b a bv hl hr]
      | mul =>
          rw [reparseE, del_mult_eval TD _ _ b a bv hl' hr',
            evalD_binop_ok TD .mul l r b a bv hl hr]
      | div =>
          rw [reparseE, del_div_eval TD _ _ b a bv hl' hr',
            evalD_binop_ok TD .div l r b a bv hl hr]
      | pow =>
          rw [reparseE, del_pow_eval TD hp1 hp0 _ _ b a bv hl' hr',
            evalD_binop_ok TD .pow l r b a bv hl hr]
  | func fn a iha =>
      rw [goodE] at hg
      simp only [reparseE, evalD, iha hg]

theorem serL_ne_nil (e : Expr) (hg : goodE e) : serL e ≠ [] := by
  cases e with
  | const q =>
      obtain ⟨d, ds, hshape, _⟩ := cppChars_head q hg
      rw [show serL (.const q) = (cppToString q).data from rfl, hshape]
      simp
  | var v => exact absurd hg (by simp [goodE])
  | binop op l r => rw [serL_binop]; simp
  | func f a =>
      rw [serL_func]
      obtain ⟨c, cs, hfc⟩ : ∃ c cs, (fnStr f).data = c :: cs := by
        cases f with
        | sin => exact ⟨ 's', [ 'i', 'n' ], rfl⟩
        | cos => exact ⟨ 'c', [ 'o', 's' ], rfl⟩
        | ln => exact ⟨ 'l', [ 'n' ], rfl⟩
        | exp => exact ⟨ 'e', [ 'x', 'p' ], rfl⟩
      rw [hfc]
      simp

theorem tks_le_len (e : Expr) (hg : goodE e) : tks e ≤ (serL e).length := by
  induction e with
  | const q =>
      have := serL_ne_nil (.const q) hg
      rw [tks]
      cases h : serL (.const q) with
      | nil => exact absurd h this
      | cons c cs => simp
  | var v => exact absurd hg (by simp [goodE])
  | binop op l r ihl ihr =>
      rw [goodE] at hg
      obtain ⟨co, hco, _, _⟩ := opStr_data op
      rw [tks, serL_binop, hco]
      simp only [List.length_cons, List.length_append, List.length_singleton]
      have h1 := ihl hg.1
      have h2 := ihr hg.2
      omega
  | func f a iha =>
      rw [goodE] at hg
      rw [tks, serL_func]
      simp only [List.length_append, List.length_cons]
      omega

theorem needF_le_len (e : Expr) (hg : goodE e) : needF e ≤ (serL e).length := by
  induction e with
  | const q => rw [needF]; omega
  | var v => exact absurd hg (by simp [goodE])
  | binop op l r ihl ihr =>
      rw [goodE] at hg
      obtain ⟨co, hco, _, _⟩ := opStr_data op
      rw [needF, serL_binop, hco]
      simp only [List.length_cons, List.length_append, List.length_singleton]
      have h1 := ihl hg.1
      have h2 := ihr hg.2
      omega
  | func f a iha =>
      rw [goodE] at hg
      rw [needF, serL_func]
      simp only [List.length_append, List.length_cons]
      have := iha hg
      omega

theorem alpha_not_digit (c : Char) (h : c.isAlpha = true) : c.isDigit = false := by
  rw [Bool.eq_false_iff]
  intro hd
  have h1 := alpha_val c h
  have h2 := digit_val c hd
  rcases h1 with ⟨ha, hb⟩ | ⟨ha, hb⟩ <;> omega

theorem fnStr_shape (f : Fn) : ∃ x xs, (fnStr f).data = x :: xs ∧
    x.isAlpha = true ∧ (∀ c ∈ xs, Char.isAlpha c = true) := by
  cases f with
  | sin => exact ⟨ 's', [ 'i', 'n' ], rfl, by decide, by decide⟩
  | cos => exact ⟨ 'c', [ 'o', 's' ], rfl, by decide, by decide⟩
  | ln => exact ⟨ 'l', [ 'n' ], rfl, by decide, by decide⟩
  | exp => exact ⟨ 'e', [ 'x', 'p' ], rfl, by decide, by decide⟩

theorem fnOf_fnStr (f : Fn) : fnOf? (fnStr f) = some f := by
  cases f <;> rfl

/-- Main parsing lemma for serialized trees: processing the serialization of
a well-formed tree from any parser state pushes exactly the rebuilt
expression on the operand stack, consumes exactly `tks e` iterations of the
token loop, and leaves the parser looking at the appended continuation with
some non-operator character as the previous character. -/
theorem pLoopN_ser (TD : Transcendentals) (e : Expr) (hg : goodE e) :
    ∀ f, needF e ≤ f → ∀ n rest, restOK rest → ∀ prev vals ops,
      ∃ pc, is_operator pc = false ∧
        pLoopN TD (parseFuel TD f) (n + tks e) (serL e ++ rest) prev vals ops
          = pLoopN TD (parseFuel TD f) n rest (some pc)
              (reparseE TD e :: vals) ops := by
  induction e with
  | const q =>
      intro f hf n rest hrest prev vals ops
      obtain ⟨d, ds, hshape, hd⟩ := cppChars_head q hg
      have hall := cppChars_all_numChar q hg
      have hds : ∀ c ∈ ds, numChar c = true := by
        intro c hc
        exact hall c (by rw [hshape]; exact List.mem_cons_of_mem d hc)
      refine ⟨ds.getLastD d, getLastD_not_op d ds hd hds, ?_⟩
      rw [show serL (.const q) = (cppToString q).data from rfl, hshape]
      rw [show ((d :: ds) ++ rest : List Char) = d :: (ds ++ rest) from rfl]
      rw [show n + tks (.const q) = n + 1 from rfl]
      rw [pLoopN_num_step TD _ n d hd ds hds rest hrest prev vals ops]
      have hst : stoldM (d :: ds) = q := by
        rw [← hshape]
        exact stold_cpp q hg
      rw [hst]
      rfl
  | var v => exact absurd hg (by simp [goodE])
  | binop op l r ihl ihr =>
      intro f hf n rest hrest prev vals ops
      rw [goodE] at hg
      obtain ⟨co, hco, hopo, hpr⟩ := opStr_data op
      have hshape : serL (.binop op l r) ++ rest
          = '(' :: (serL l ++ (co :: (serL r ++ (')' :: rest)))) := by
        rw [serL_binop, hco]
        simp [List.append_assoc]
      have hfl : needF l ≤ f := le_trans (le_max_left _ _) (by rw [needF] at hf; exact hf)
      have hfr : needF r ≤ f := le_trans (le_max_right _ _) (by rw [needF] at hf; exact hf)
      have he1 : n + tks (.binop op l r) = (n + tks r + 2 + tks l) + 1 := by
        rw [tks]
        ring
      rw [hshape, he1]
      rw [pLoopN_lparen_step TD _ (n + tks r + 2 + tks l) _ prev vals ops]
      have he2 : n + tks r + 2 + tks l = (n + tks r + 2) + tks l := by ring
      rw [he2]
      obtain ⟨pc1, hpc1, hstep1⟩ := ihl hg.1 f hfl (n + tks r + 2)
        (co :: (serL r ++ (')' :: rest))) (Or.inr ⟨co, _, rfl, Or.inr hopo⟩)
        (some '(') vals ('(' :: ops)
      rw [hstep1]
      have he3 : n + tks r + 2 = (n + tks r + 1) + 1 := by ring
      rw [he3]
      rw [pLoopN_op_step TD _ (n + tks r + 1) co hopo hpr pc1 hpc1 _ _ _]
      have he4 : n + tks r + 1 = (n + 1) + tks r := by ring
      rw [he4]
      obtain ⟨pc2, hpc2, hstep2⟩ := ihr hg.2 f hfr (n + 1)
        (')' :: rest) (Or.inr ⟨ ')', rest, rfl, Or.inl rfl⟩)
        (some co) (reparseE TD l :: vals) (co :: '(' :: ops)
      rw [hstep2]
      have hcomb : combineStep TD co
          (reparseE TD r :: reparseE TD l :: vals)
          = .ok (reparseE TD (.binop op l r) :: vals) := by
        cases op with
        | add =>
            have hc : co = '+' := by
              have : (['+'] : List Char) = [co] := hco
              simpa using this.symm
            subst hc
            rfl
        | sub =>
            have hc : co = '-' := by
              have : (['-'] : List Char) = [co] := hco
              simpa using this.symm
            subst hc
            rfl
        | mul =>
            have hc : co = '*' := by
              have : (['*'] : List Char) = [co] := hco
              simpa using this.symm
            subst hc
            rfl
        | div =>
            have hc : co = '/' := by
              have : (['/'] : List Char) = [co] := hco
              simpa using this.symm
            subst hc
            rfl
        | pow =>
            have hc : co = '^' := by
              have : (['^'] : List Char) = [co] := hco
              simpa using this.symm
            subst hc
            rfl
      rw [pLoopN_rparen_step TD _ n co hopo rest (some pc2) _ _ hcomb ops]
      exact ⟨ ')', by decide, rfl⟩
  | func fn a iha =>
      intro f hf n rest hrest prev vals ops
      rw [goodE] at hg
      obtain ⟨x, xs, hfc, hxA, hxsA⟩ := fnStr_shape fn
      have hxfacts : ¬(x = ' ') := by
        have := fnStr_char_facts fn x (by rw [hfc]; exact List.mem_cons_self x xs)
        exact this.2.2.1
      have hshape : serL (.func fn a) ++ rest
          = x :: (xs ++ ('(' :: (serL a ++ (')' :: rest)))) := by
        rw [serL_func, hfc]
        simp [List.append_assoc]
      rw [hshape, show n + tks (.func fn a) = n + 1 from rfl]
      -- unfold one iteration of the token loop by hand (alpha branch)
      simp only [pLoopN]
      rw [if_neg hxfacts, if_neg (by simp [alpha_not_digit x hxA]),
        if_pos (by simp [hxA])]
      have hparen : (('(' : Char)).isAlpha = false := by decide
      have htw : (xs ++ ('(' :: (serL a ++ (')' :: rest)))).takeWhile Char.isAlpha
          = xs := takeWhile_append_not _ _ hxsA (Or.inr ⟨_, _, rfl, hparen⟩)
      have hdw : (xs ++ ('(' :: (serL a ++ (')' :: rest)))).dropWhile Char.isAlpha
          = '(' :: (serL a ++ (')' :: rest)) :=
        dropWhile_append_not _ _ hxsA (Or.inr ⟨_, _, rfl, hparen⟩)
      rw [htw, hdw]
      have hmk : String.mk (x :: xs) = fnStr fn := by
        rw [← hfc]
      rw [hmk, fnOf_fnStr]
      simp only []
      have hbal := ser_balanced a hg 1 (by omega)
      have hscan : scanArg (serL a ++ (')' :: rest)) 1 = (serL a, rest) := by
        rw [scanArg_appendix (serL a) 1 (')' :: rest) hbal.1, hbal.2]
        rw [show scanArg (')' :: rest) 1 = ([], rest) from by simp [scanArg]]
        simp
      rw [hscan]
      rw [if_neg (by simp [serL_ne_nil a hg])]
      obtain ⟨f0, rfl⟩ : ∃ f0, f = f0 + 1 := by
        rw [needF] at hf
        exact ⟨f - 1, by omega⟩
      have hrecur : parseFuel TD (f0 + 1) (String.mk (serL a))
          = .ok (reparseE TD a) := by
        rw [parseFuel]
        rw [preprocess_mk (serL a) (ser_chars_ok a hg)]
        have hlen : (serL a).length = ((serL a).length - tks a) + tks a := by
          have := tks_le_len a hg
          omega
        rw [hlen]
        obtain ⟨pc, _, hstep⟩ := iha hg f0 (by rw [needF] at hf; omega)
          ((serL a).length - tks a) [] (Or.inl rfl) none [] []
        rw [show (serL a) ++ ([] : List Char) = serL a from by simp] at hstep
        rw [hstep]
        simp [pLoopN, drain]
      rw [hrecur]
      exact ⟨ ')', by decide, rfl⟩

/-- Parsing the serialization of a well-formed tree with `make_expression`
succeeds and returns the rebuilt expression. -/
theorem make_expression_ser (TD : Transcendentals) (e : Expr) (hg : goodE e) :
    make_expression TD (to_string e) = .ok (reparseE TD e) := by
  rw [make_expression]
  have hlen : (to_string e).length = (serL e).length := rfl
  rw [hlen, parseFuel]
  have hmk : to_string e = String.mk (serL e) := rfl
  rw [hmk, preprocess_mk (serL e) (ser_chars_ok e hg)]
  have hl2 : (serL e).length = ((serL e).length - tks e) + tks e := by
    have := tks_le_len e hg
    omega
  nth_rewrite 2 [hl2]
  obtain ⟨pc, _, hstep⟩ := pLoopN_ser TD e hg (serL e).length
    (needF_le_len e hg) ((serL e).length - tks e) [] (Or.inl rfl) none [] []
  rw [show (serL e) ++ ([] : List Char) = serL e from by simp] at hstep
  rw [hstep]
  simp [pLoopN, drain]

theorem ratPow_one (x : ℚ) : ratPow x 1 = x := by
  rw [ratPow]
  norm_num

theorem ratPow_zero (x : ℚ) : ratPow x 0 = 1 := by
  rw [ratPow]
  norm_num

/-- C4 counterexample.  The claim includes expressions "such as e built
from Constant(-1)"; for `e = Constant(-1)` the round trip already fails to
parse: the serialization is `"-1.000000"`, whose leading `'-'` enters the
broken unary-minus branch and underflows (undefined behavior), while
`e.eval({})` is `-1` — so `parse(e.serialize()).eval({})` cannot equal
`e.eval({})`. -/
theorem claim_C4_cex :
    to_string (Expr.const (-1)) = "-1.000000" ∧
    evalD cppTD (Expr.const (-1)) (fun _ => none) = .ok (-1) ∧
    make_expression cppTD (to_string (Expr.const (-1))) = .error .underflow := by
  refine ⟨?_, ?_, ?_⟩ <;> with_unfolding_all rfl

/-- C4 amended (round trip restricted to nonnegative six-decimal
constants).  For every Expression `e` with no Variable nodes, all of whose
constants are nonnegative values with at most six decimal places (the
values `std::to_string`/`std::stold` reproduce exactly), and for any
numeric domain whose power function satisfies `pow(x,1) = x` and
`pow(x,0) = 1` (true of `std::pow`): parsing the serialization of `e`
succeeds with the rebuilt tree, that tree evaluates under the empty
binding to exactly `e.eval({})`, and `e.eval({})` is defined. -/
theorem claim_C4_roundtrip (TD : Transcendentals)
    (hp1 : ∀ x : ℚ, TD.powF x 1 = x) (hp0 : ∀ x : ℚ, TD.powF x 0 = 1)
    (e : Expr) (hg : goodE e) :
    make_expression TD (to_string e) = .ok (reparseE TD e) ∧
    evalD TD (reparseE TD e) (fun _ => none) = evalD TD e (fun _ => none) ∧
    ∃ v, evalD TD e (fun _ => none) = .ok v :=
  ⟨make_expression_ser TD e hg,
   reparse_eval TD hp1 hp0 e hg (fun _ => none),
   evalD_ok_of_noVar TD e (fun _ => none) (goodE_noVar e hg)⟩

/-- C4 witness: the amended round trip applied at
`e = (2 + 0.5) * sin(1) / 4 ^ 2` (a variable-free tree exercising every
binary operator and a function node) over the concrete domain `cppTD`. -/
theorem claim_C4_witness :
    make_expression cppTD (to_string
      (Expr.binop .div
        (Expr.binop .mul (Expr.binop .add (.const 2) (.const (1/2)))
          (.func .sin (.const 1)))
        (Expr.binop .pow (.const 4) (.const 2))))
      = .ok (reparseE cppTD
        (Expr.binop .div
          (Expr.binop .mul (Expr.binop .add (.const 2) (.const (1/2)))
            (.func .sin (.const 1)))
          (Expr.binop .pow (.const 4) (.const 2)))) ∧
    evalD cppTD (reparseE cppTD
        (Expr.binop .div
          (Expr.binop .mul (Expr.binop .add (.const 2) (.const (1/2)))
            (.func .sin (.const 1)))
          (Expr.binop .pow (.const 4) (.const 2)))) (fun _ => none)
      = evalD cppTD
        (Expr.binop .div
          (Expr.binop .mul (Expr.binop .add (.const 2) (.const (1/2)))
            (.func .sin (.const 1)))
          (Expr.binop .pow (.const 4) (.const 2))) (fun _ => none) := by
  have hg : goodE (Expr.binop .div
      (Expr.binop .mul (Expr.binop .add (.const 2) (.const (1/2)))
        (.func .sin (.const 1)))
      (Expr.binop .pow (.const 4) (.const 2))) := by
    refine ⟨⟨⟨⟨2000000, by norm_num⟩, ⟨500000, by norm_num⟩⟩,
      ⟨1000000, by norm_num⟩⟩, ⟨4000000, by norm_num⟩, ⟨2000000, by norm_num⟩⟩
  have h := claim_C4_roundtrip cppTD ratPow_one ratPow_zero _ hg
  exact ⟨h.1, h.2.1⟩
